import Mathlib

/-!
Verification of the ibc-go v100 legacy client store migration
(`modules/core/02-client/legacy/v100/store.go`).

Keys of the underlying key-value store are modelled as lists of characters
(`Key`), the store itself as an association list from keys to decoded record
values (`KV.Store`).  Go's `strings.Split` on `"/"` and `"-"` is modelled by
`splitChar`, byte-wise key comparison by lexicographic comparison of the
character lists.  The Go functions `MigrateStore`, `migrateSolomachine`,
`pruneSolomachineConsensusStates` and `addConsensusMetadata` are translated
directly; the panic of `clienttypes.MustParseHeight` on an unparseable height
segment is modelled as the fatal error `MigError.malformedHeightKey`
propagated to the caller, and external collaborators that are not part of the
source tree (host key literals, `ParseClientIdentifier`, `Height` printing
and parsing, the consensus metadata marker keys, the chain height provider,
and the external tendermint pruning routine) are modelled from the spec as
documented on each definition.
-/

namespace Ibc

/-- A raw store key: the list of characters of the Go key string. -/
abbrev Key := List Char

/-- `strKey s` is the key made of the characters of the string literal `s`. -/
def strKey (s : String) : Key := s.data

/-- Splits a character list at every occurrence of the separator `c`,
mirroring Go's `strings.Split`: the result is never empty, and splitting the
empty list yields `[[]]`. -/
def splitChar (c : Char) : List Char → List (List Char)
  | [] => [[]]
  | x :: xs =>
    if x = c then [] :: splitChar c xs
    else
      match splitChar c xs with
      | [] => [[x]]
      | s :: ss => (x :: s) :: ss

/-- Joins segments with the separator `c`, the inverse of `splitChar`. -/
def joinChar (c : Char) : List (List Char) → List Char
  | [] => []
  | [s] => s
  | s :: ss => s ++ c :: joinChar c ss

theorem splitChar_ne_nil (c : Char) (l : List Char) : splitChar c l ≠ [] := by
  cases l with
  | nil => simp [splitChar]
  | cons x xs =>
    simp only [splitChar]
    split
    · simp
    · split <;> simp

theorem joinChar_splitChar (c : Char) (l : List Char) :
    joinChar c (splitChar c l) = l := by
  induction l with
  | nil => rfl
  | cons x xs ih =>
    simp only [splitChar]
    split
    · rename_i hx
      subst hx
      cases h : splitChar x xs with
      | nil => exact absurd h (splitChar_ne_nil x xs)
      | cons s ss =>
        rw [h] at ih
        cases ss with
        | nil => simp [joinChar, ← ih]
        | cons t ts => simp [joinChar] at ih ⊢; simpa using ih
    · rename_i hx
      cases h : splitChar c xs with
      | nil => exact absurd h (splitChar_ne_nil c xs)
      | cons s ss =>
        rw [h] at ih
        cases ss with
        | nil => simp [joinChar, ← ih]
        | cons t ts => simp [joinChar] at ih ⊢; simpa using ih

theorem mem_joinChar_of_mem {c d : Char} {L : List (List Char)} {s : List Char}
    (hs : s ∈ L) (hd : d ∈ s) : d ∈ joinChar c L := by
  induction L with
  | nil => simp at hs
  | cons t ts ih =>
    cases ts with
    | nil =>
      simp only [List.mem_singleton] at hs
      subst hs
      simpa [joinChar] using hd
    | cons u us =>
      simp only [joinChar]
      rcases List.mem_cons.mp hs with h | h
      · subst h
        exact List.mem_append.mpr (Or.inl hd)
      · exact List.mem_append.mpr (Or.inr (List.mem_cons.mpr (Or.inr (ih h))))

theorem mem_of_mem_splitChar {c d : Char} {l s : List Char}
    (hs : s ∈ splitChar c l) (hd : d ∈ s) : d ∈ l := by
  have h := joinChar_splitChar c l
  exact h ▸ mem_joinChar_of_mem hs hd

theorem not_mem_of_mem_splitChar {c : Char} {l s : List Char}
    (hs : s ∈ splitChar c l) : c ∉ s := by
  induction l generalizing s with
  | nil =>
    simp [splitChar] at hs
    simp [hs]
  | cons x xs ih =>
    simp only [splitChar] at hs
    split at hs
    · rcases List.mem_cons.mp hs with h | h
      · simp [h]
      · exact ih h
    · rename_i hx
      cases h : splitChar c xs with
      | nil => exact absurd h (splitChar_ne_nil c xs)
      | cons t ts =>
        rw [h] at hs
        rcases List.mem_cons.mp hs with h' | h'
        · subst h'
          intro hmem
          rcases List.mem_cons.mp hmem with h'' | h''
          · exact hx h''.symm
          · exact ih (h ▸ List.mem_cons_self t ts) h''
        · exact ih (h ▸ List.mem_cons.mpr (Or.inr h'))

theorem splitChar_of_not_mem {c : Char} {l : List Char} (h : c ∉ l) :
    splitChar c l = [l] := by
  induction l with
  | nil => rfl
  | cons x xs ih =>
    simp only [splitChar]
    rw [if_neg (by intro hx; exact h (hx ▸ List.mem_cons_self x xs))]
    rw [ih (by intro hm; exact h (List.mem_cons.mpr (Or.inr hm)))]

theorem splitChar_append {c : Char} {a rest : List Char} (ha : c ∉ a) :
    splitChar c (a ++ c :: rest) = a :: splitChar c rest := by
  induction a with
  | nil => simp [splitChar]
  | cons x xs ih =>
    have hx : x ≠ c := by intro h; exact ha (h ▸ List.mem_cons_self x xs)
    have hxs : c ∉ xs := by intro h; exact ha (List.mem_cons.mpr (Or.inr h))
    simp only [List.cons_append, splitChar, if_neg hx]
    rw [show xs.append (c :: rest) = xs ++ c :: rest from rfl, ih hxs]

/-- Splits a non-empty list of segments into all-but-last and last. -/
def splitLast : List (List Char) → Option (List (List Char) × List Char)
  | [] => none
  | [x] => some ([], x)
  | x :: xs =>
    match splitLast xs with
    | some (ys, last) => some (x :: ys, last)
    | none => none

theorem splitLast_eq_append {l : List (List Char)} {ys : List (List Char)}
    {last : List Char} (h : splitLast l = some (ys, last)) : l = ys ++ [last] := by
  induction l generalizing ys with
  | nil => simp [splitLast] at h
  | cons x xs ih =>
    cases xs with
    | nil =>
      simp only [splitLast, Option.some.injEq, Prod.mk.injEq] at h
      simp [← h.1, ← h.2]
    | cons u us =>
      simp only [splitLast] at h
      cases h' : splitLast (u :: us) with
      | none => rw [h'] at h; simp at h
      | some p =>
        obtain ⟨zs, z⟩ := p
        rw [h'] at h
        simp only [Option.some.injEq, Prod.mk.injEq] at h
        obtain ⟨h1, h2⟩ := h
        subst h2
        rw [← h1, List.cons_append, ih h']

/-- `joinChar` over a snoc of segments. -/
theorem joinChar_append_single (c : Char) (ys : List (List Char)) (last : List Char)
    (hys : ys ≠ []) : joinChar c (ys ++ [last]) = joinChar c ys ++ c :: last := by
  induction ys with
  | nil => simp at hys
  | cons t ts ih =>
    cases ts with
    | nil => simp [joinChar]
    | cons u us =>
      have h2 := ih (by simp)
      show t ++ c :: joinChar c ((u :: us) ++ [last]) =
        (t ++ c :: joinChar c (u :: us)) ++ c :: last
      rw [h2]
      simp

/-- The decimal digit character for a value below ten. -/
def digitChar (d : Nat) : Char :=
  match d with
  | 0 => '0' | 1 => '1' | 2 => '2' | 3 => '3' | 4 => '4'
  | 5 => '5' | 6 => '6' | 7 => '7' | 8 => '8' | _ => '9'

/-- The numeric value of a decimal digit character. -/
def digitVal (c : Char) : Nat := c.toNat - 48

theorem digitVal_digitChar {d : Nat} (h : d < 10) : digitVal (digitChar d) = d := by
  interval_cases d <;> decide

theorem isDigit_digitChar {d : Nat} (h : d < 10) : (digitChar d).isDigit = true := by
  interval_cases d <;> decide

/-- Big-endian decimal digits of a natural number (fuel-driven so that the
kernel can evaluate it); `natToDigits` below supplies sufficient fuel. -/
def natToDigitsAux : Nat → Nat → List Char
  | 0, _ => []
  | fuel + 1, n => if n = 0 then [] else natToDigitsAux fuel (n / 10) ++ [digitChar (n % 10)]

/-- Modelled from the spec: decimal printing of the components of a `Height`
for the `"{revision}-{height}"` key form (`Height.String` in the source's
external `02-client/types` package). -/
def natToDigits (n : Nat) : List Char :=
  if n = 0 then ['0'] else natToDigitsAux (n + 1) n

/-- Value of a big-endian decimal digit string. -/
def parseNatCore (l : List Char) : Nat := l.foldl (fun a c => a * 10 + digitVal c) 0

/-- Modelled from the spec: parsing of a decimal number component, as
`strconv.ParseUint` does for the height and identifier sequence components;
it requires a non-empty all-digit string. -/
def parseNatDigits (l : List Char) : Option Nat :=
  if l = [] then none
  else if l.all Char.isDigit then some (parseNatCore l) else none

theorem natToDigitsAux_all_isDigit (fuel n : Nat) :
    (natToDigitsAux fuel n).all Char.isDigit = true := by
  induction fuel generalizing n with
  | zero => rfl
  | succ fuel ih =>
    simp only [natToDigitsAux]
    split
    · rfl
    · rename_i hn
      rw [List.all_append]
      have h2 : n % 10 < 10 := Nat.mod_lt _ (by omega)
      simp [ih, isDigit_digitChar h2]

theorem parseNatCore_natToDigitsAux {fuel n : Nat} (h : n ≤ fuel) :
    parseNatCore (natToDigitsAux fuel n) = n := by
  induction fuel generalizing n with
  | zero => simp_all [natToDigitsAux, parseNatCore]
  | succ fuel ih =>
    simp only [natToDigitsAux]
    split
    · simp_all [parseNatCore]
    · rename_i hn
      have hlt : n / 10 < n := Nat.div_lt_self (by omega) (by omega)
      have : parseNatCore (natToDigitsAux fuel (n / 10)) = n / 10 := ih (by omega)
      simp only [parseNatCore] at this ⊢
      rw [List.foldl_append, this]
      simp only [List.foldl_cons, List.foldl_nil]
      rw [digitVal_digitChar (Nat.mod_lt _ (by omega))]
      omega

theorem natToDigitsAux_ne_nil {fuel n : Nat} (hn : 0 < n) (h : n ≤ fuel) :
    natToDigitsAux fuel n ≠ [] := by
  cases fuel with
  | zero => omega
  | succ fuel => simp [natToDigitsAux, Nat.pos_iff_ne_zero.mp hn]

theorem natToDigits_all_isDigit (n : Nat) : (natToDigits n).all Char.isDigit = true := by
  unfold natToDigits
  split
  · rfl
  · exact natToDigitsAux_all_isDigit _ _

theorem natToDigits_ne_nil (n : Nat) : natToDigits n ≠ [] := by
  unfold natToDigits
  split
  · simp
  · rename_i hn
    exact natToDigitsAux_ne_nil (by omega) (by omega)

theorem parseNatDigits_natToDigits (n : Nat) : parseNatDigits (natToDigits n) = some n := by
  by_cases hn : n = 0
  · subst hn; rfl
  · unfold parseNatDigits
    rw [if_neg (natToDigits_ne_nil n), if_pos (natToDigits_all_isDigit n)]
    unfold natToDigits
    rw [if_neg hn, parseNatCore_natToDigitsAux (by omega)]

theorem not_dash_of_isDigit {c : Char} (h : c.isDigit = true) : c ≠ '-' := by
  intro he; subst he; simp at h

theorem not_slash_of_isDigit {c : Char} (h : c.isDigit = true) : c ≠ '/' := by
  intro he; subst he; simp at h

theorem not_mem_natToDigits_of_not_digit {c : Char} (n : Nat) (hc : c.isDigit = false) :
    c ∉ natToDigits n := by
  intro hmem
  have := natToDigits_all_isDigit n
  rw [List.all_eq_true] at this
  have := this c hmem
  rw [hc] at this
  exact Bool.false_ne_true this

/-- An IBC revision height, `clienttypes.Height` of the source's external
`02-client/types` package (specified in the spec's data model as an ordered
pair (revision, height)). -/
structure Height where
  revisionNumber : Nat
  revisionHeight : Nat
deriving DecidableEq, Repr

/-- Modelled from the spec: the string form `"{revision}-{height}"` of a
`Height` used in consensus-state key suffixes (`Height.String` is external
to the source tree). -/
def heightChars (h : Height) : Key :=
  natToDigits h.revisionNumber ++ '-' :: natToDigits h.revisionHeight

/-- Modelled from the spec: `clienttypes.ParseHeight` on the string form
`"{revision}-{height}"` (external to the source tree); it requires exactly
two dash-separated decimal components.  `clienttypes.MustParseHeight`,
called by the migration, is this parse with failure modelled as the fatal
`malformedHeightKey` error at the call sites. -/
def parseHeight (s : Key) : Option Height :=
  match splitChar '-' s with
  | [a, b] =>
    match parseNatDigits a, parseNatDigits b with
    | some r, some h => some ⟨r, h⟩
    | _, _ => none
  | _ => none

theorem not_dash_mem_natToDigits (n : Nat) : '-' ∉ natToDigits n :=
  not_mem_natToDigits_of_not_digit n (by decide)

theorem not_slash_mem_natToDigits (n : Nat) : '/' ∉ natToDigits n :=
  not_mem_natToDigits_of_not_digit n (by decide)

theorem not_slash_mem_heightChars (h : Height) : '/' ∉ heightChars h := by
  unfold heightChars
  intro hmem
  rcases List.mem_append.mp hmem with h1 | h1
  · exact not_slash_mem_natToDigits _ h1
  · rcases List.mem_cons.mp h1 with h2 | h2
    · exact absurd h2 (by decide)
    · exact not_slash_mem_natToDigits _ h2

theorem parseHeight_heightChars (h : Height) : parseHeight (heightChars h) = some h := by
  unfold parseHeight heightChars
  rw [splitChar_append (not_dash_mem_natToDigits _),
    splitChar_of_not_mem (not_dash_mem_natToDigits _)]
  simp [parseNatDigits_natToDigits]

/-- Modelled from the spec: the host key literal `host.KeyClientStorePrefix`
("clients"), the global client store namespace (external `24-host` package). -/
def keyClientStorePfx : Key := strKey "clients"

/-- Modelled from the spec: the host key literal `host.KeyClientState`
("clientState"), the client-state record suffix (external `24-host` package);
`host.ClientStateKey()` returns exactly this literal. -/
def keyClientState : Key := strKey "clientState"

/-- Modelled from the spec: the host key literal
`host.KeyConsensusStatePrefix` ("consensusStates"), the consensus-state
record namespace (external `24-host` package). -/
def keyConsensusStatePfx : Key := strKey "consensusStates"

/-- Modelled from the spec: `host.ConsensusStateKey(height)`, the
consensus-state record key `"consensusStates/{height}"` (external `24-host`
package). -/
def ConsensusStateKey (h : Height) : Key :=
  keyConsensusStatePfx ++ '/' :: heightChars h

/-- Modelled from the spec: the processed-height marker key for a consensus
height, written by the external `ibctm.SetProcessedHeight`; the spec only
requires a distinct per-height marker key under the client's sub-store. -/
def ProcessedHeightKey (h : Height) : Key :=
  keyConsensusStatePfx ++ '/' :: (heightChars h ++ strKey "/processedHeight")

/-- Modelled from the spec: the iteration-order marker key for a consensus
height, written by the external `ibctm.SetIterationKey`; the spec only
requires a distinct per-height marker key under the client's sub-store. -/
def IterationKey (h : Height) : Key :=
  strKey "iterateConsensusStates/" ++ heightChars h

/-- Modelled from the spec: the solo machine client type tag
`exported.Solomachine` ("06-solomachine", external `exported` package). -/
def Solomachine : Key := strKey "06-solomachine"

/-- Modelled from the spec: the tendermint (time-ordered) client type tag
`exported.Tendermint` ("07-tendermint", external `exported` package). -/
def Tendermint : Key := strKey "07-tendermint"

/-- Modelled from the spec: `clienttypes.ParseClientIdentifier` (external
`02-client/types` package): an identifier of the form `{tag}-{number}`
splits at its last dash into the type tag and a decimal sequence; any other
form is rejected (`ErrInvalidIdentifier`). -/
def ParseClientIdentifier (clientID : Key) : Option (Key × Nat) :=
  match splitLast (splitChar '-' clientID) with
  | none => none
  | some (ys, last) =>
    if ys = [] then none
    else
      match parseNatDigits last with
      | none => none
      | some n => some (joinChar '-' ys, n)

theorem parseNatDigits_all_isDigit {l : List Char} {n : Nat}
    (h : parseNatDigits l = some n) : l.all Char.isDigit = true := by
  unfold parseNatDigits at h
  split at h
  · simp at h
  · split at h
    · assumption
    · simp at h

/-- Every character of a well-formed client identifier is a character of its
type tag, the dash separator, or a decimal digit. -/
theorem mem_of_parseClientIdentifier {id : Key} {tag : Key} {n : Nat}
    (h : ParseClientIdentifier id = some (tag, n)) {c : Char} (hc : c ∈ id) :
    c ∈ tag ∨ c = '-' ∨ c.isDigit = true := by
  unfold ParseClientIdentifier at h
  cases hsl : splitLast (splitChar '-' id) with
  | none => rw [hsl] at h; simp at h
  | some p =>
    obtain ⟨ys, last⟩ := p
    rw [hsl] at h
    dsimp only at h
    by_cases hys : ys = []
    · rw [if_pos hys] at h
      exact absurd h (by simp)
    · rw [if_neg hys] at h
      cases hpn : parseNatDigits last with
      | none =>
        rw [hpn] at h
        exact absurd h (by simp)
      | some m =>
        rw [hpn] at h
        simp only [Option.some.injEq, Prod.mk.injEq] at h
        obtain ⟨htag, hm⟩ := h
        have hsplit := splitLast_eq_append hsl
        have hid : joinChar '-' (ys ++ [last]) = id := by
          rw [← hsplit]; exact joinChar_splitChar '-' id
        rw [← hid, joinChar_append_single '-' ys last hys] at hc
        rcases List.mem_append.mp hc with h1 | h1
        · exact Or.inl (htag ▸ h1)
        · rcases List.mem_cons.mp h1 with h2 | h2
          · exact Or.inr (Or.inl h2)
          · have := parseNatDigits_all_isDigit hpn
            rw [List.all_eq_true] at this
            exact Or.inr (Or.inr (this c h2))

theorem not_slash_mem_of_parse_solomachine {id : Key} {n : Nat}
    (h : ParseClientIdentifier id = some (Solomachine, n)) : '/' ∉ id := by
  intro hc
  rcases mem_of_parseClientIdentifier h hc with h1 | h1 | h1
  · exact absurd h1 (by decide)
  · exact absurd h1 (by decide)
  · exact absurd h1 (by decide)

/-- The embedded consensus state of a solo machine client: public key,
diversifier and timestamp (shared shape of the legacy v1 and the new v2
protobuf definitions; the public key is opaque to the migration and
modelled as a number). -/
structure SmConsensusState where
  publicKey : Nat
  diversifier : List Char
  timestamp : Nat
deriving DecidableEq, Repr

/-- The legacy (v1) solo machine client state `v100.ClientState`: sequence,
frozen sequence (0 meaning not frozen) and embedded consensus state. -/
structure ClientStateV1 where
  sequence : Nat
  frozenSequence : Nat
  consensusState : SmConsensusState
deriving DecidableEq, Repr

/-- The new (v2) solo machine client state `solomachine.ClientState`:
sequence, boolean frozen flag and embedded consensus state. -/
structure ClientStateSm where
  sequence : Nat
  isFrozen : Bool
  consensusState : SmConsensusState
deriving DecidableEq, Repr

/-- The tendermint client state `ibctm.ClientState`, opaque to this
migration beyond its dynamic type; its contents are modelled as a number. -/
structure ClientStateTm where
  data : Nat
deriving DecidableEq, Repr

/-- A decoded store record value.  The codec is modelled by making the store
hold decoded values: bytes that decode as a given record shape are the
constructor of that shape, undecodable bytes are `raw`. -/
inductive Value where
  | smV1 (cs : ClientStateV1)
  | smV2 (cs : ClientStateSm)
  | tm (cs : ClientStateTm)
  | anyClient (tag : Nat)
  | heightVal (h : Height)
  | raw (n : Nat)
deriving DecidableEq, Repr

/-- Result of `cdc.UnmarshalInterface` into `exported.ClientState`: a
dynamically typed client state. -/
inductive DecodedClientState where
  | tm (cs : ClientStateTm)
  | smV2 (cs : ClientStateSm)
  | other (tag : Nat)
deriving DecidableEq, Repr

/-- `cdc.Unmarshal` into a `codectypes.Any` followed by `cdc.Unmarshal` of
its value into the legacy `v100.ClientState` (source lines 63-71): succeeds
exactly when the stored bytes encode a legacy solo machine client state. -/
def unmarshalSolomachineV1 : Value → Option ClientStateV1
  | .smV1 cs => some cs
  | _ => none

/-- `cdc.UnmarshalInterface` into `exported.ClientState` (source line 87):
succeeds exactly when the stored bytes encode some registered client state
type, yielding its dynamic type. -/
def unmarshalInterface : Value → Option DecodedClientState
  | .tm cs => some (.tm cs)
  | .smV2 cs => some (.smV2 cs)
  | .anyClient tag => some (.other tag)
  | _ => none

/-- `clienttypes.MarshalClientState` of a v2 solo machine client state
(source line 75): re-encoding through the type-tagged envelope. -/
def marshalClientStateSm (cs : ClientStateSm) : Value := .smV2 cs

/-- The migration error taxonomy of the spec (§7).  `malformedHeightKey`
models the `MustParseHeight` panic, which is fatal to the migration. -/
inductive MigError where
  | invalidIdentifier
  | clientNotFound
  | decodeFailure
  | wrongClientType
  | malformedHeightKey
deriving DecidableEq, Repr

instance : Inhabited Value := ⟨.raw 0⟩

namespace KV

/-- The key-value store: an association list from keys to record values.
Reads take the first binding of a key; `set` shadows by prepending. -/
abbrev Store := List (Key × Value)

instance : Inhabited (Key × Value) := ⟨([], .raw 0)⟩

/-- `store.Get`: the first binding of the key, `none` when absent. -/
def get : Store → Key → Option Value
  | [], _ => none
  | (k', v) :: s, k => if k' = k then some v else get s k

/-- `store.Set`: bind the key, shadowing any earlier binding. -/
def set (s : Store) (k : Key) (v : Value) : Store := (k, v) :: s

/-- `store.Delete`: remove every binding of the key. -/
def del : Store → Key → Store
  | [], _ => []
  | (k', v) :: s, k => if k' = k then del s k else (k', v) :: del s k

theorem get_set (s : Store) (k k' : Key) (v : Value) :
    get (set s k v) k' = if k = k' then some v else get s k' := rfl

theorem get_set_self (s : Store) (k : Key) (v : Value) :
    get (set s k v) k = some v := by simp [get_set]

theorem get_set_ne (s : Store) {k k' : Key} {v : Value} (h : k ≠ k') :
    get (set s k v) k' = get s k' := by simp [get_set, h]

theorem get_del (s : Store) (k k' : Key) :
    get (del s k) k' = if k = k' then none else get s k' := by
  induction s with
  | nil => simp [del, get]
  | cons kv s ih =>
    obtain ⟨k0, v0⟩ := kv
    simp only [del]
    by_cases h0 : k0 = k
    · subst h0
      rw [if_pos rfl, ih]
      by_cases h1 : k0 = k'
      · subst h1; simp
      · simp [get, h1]
    · rw [if_neg h0]
      by_cases h1 : k0 = k'
      · subst h1
        rw [if_neg (by intro h; exact h0 h.symm)]
        simp [get, ih, h0]
      · simp [get, h1, ih]

theorem get_del_self (s : Store) (k : Key) : get (del s k) k = none := by
  simp [get_del]

theorem get_del_ne (s : Store) {k k' : Key} (h : k ≠ k') :
    get (del s k) k' = get s k' := by simp [get_del, h]

/-- A key is present when it has a binding. -/
theorem get_eq_none_iff (s : Store) (k : Key) :
    get s k = none ↔ k ∉ s.map Prod.fst := by
  induction s with
  | nil => simp [get]
  | cons kv s ih =>
    obtain ⟨k0, v0⟩ := kv
    by_cases h0 : k0 = k
    · subst h0; simp [get]
    · simp [get, h0, ih, Ne.symm h0]

/-- Byte-wise (here: character-wise) lexicographic order on raw keys. -/
def leKey : Key → Key → Bool
  | [], _ => true
  | _ :: _, [] => false
  | a :: as, b :: bs => if a = b then leKey as bs else decide (a < b)

/-- Insertion into a sorted key list. -/
def insertSorted (k : Key) : List Key → List Key
  | [] => [k]
  | k' :: ks => if leKey k k' then k :: k' :: ks else k' :: insertSorted k ks

/-- Sorting a key list into store iteration order. -/
def sortKeys (l : List Key) : List Key := l.foldr insertSorted []

theorem mem_insertSorted {a k : Key} {l : List Key} :
    a ∈ insertSorted k l ↔ a = k ∨ a ∈ l := by
  induction l with
  | nil => simp [insertSorted]
  | cons k' ks ih =>
    simp only [insertSorted]
    split
    · simp
    · simp [ih]
      tauto

theorem mem_sortKeys {a : Key} {l : List Key} : a ∈ sortKeys l ↔ a ∈ l := by
  induction l with
  | nil => simp [sortKeys]
  | cons k ks ih =>
    simp only [sortKeys, List.foldr_cons] at ih ⊢
    rw [mem_insertSorted, ih, List.mem_cons]

/-- First-occurrence deduplication of a key list. -/
def dedupKeysAux : List Key → List Key → List Key
  | [], _ => []
  | k :: ks, seen =>
    if k ∈ seen then dedupKeysAux ks seen else k :: dedupKeysAux ks (k :: seen)

def dedupKeys (l : List Key) : List Key := dedupKeysAux l []

theorem mem_dedupKeysAux {a : Key} {l seen : List Key} :
    a ∈ dedupKeysAux l seen ↔ a ∈ l ∧ a ∉ seen := by
  induction l generalizing seen with
  | nil => simp [dedupKeysAux]
  | cons k ks ih =>
    simp only [dedupKeysAux]
    split
    · rename_i hk
      rw [ih]
      constructor
      · rintro ⟨h1, h2⟩
        exact ⟨List.mem_cons.mpr (Or.inr h1), h2⟩
      · rintro ⟨h1, h2⟩
        rcases List.mem_cons.mp h1 with h3 | h3
        · exact absurd (h3 ▸ hk) h2
        · exact ⟨h3, h2⟩
    · rename_i hk
      rw [List.mem_cons, ih]
      constructor
      · rintro (h1 | ⟨h1, h2⟩)
        · exact ⟨List.mem_cons.mpr (Or.inl h1), h1 ▸ hk⟩
        · constructor
          · exact List.mem_cons.mpr (Or.inr h1)
          · intro hmem
            exact h2 (List.mem_cons.mpr (Or.inr hmem))
      · rintro ⟨h1, h2⟩
        by_cases h3 : a = k
        · exact Or.inl h3
        · right
          rcases List.mem_cons.mp h1 with h4 | h4
          · exact absurd h4 h3
          · refine ⟨h4, fun hmem => ?_⟩
            rcases List.mem_cons.mp hmem with h5 | h5
            · exact h3 h5
            · exact h2 h5

theorem mem_dedupKeys {a : Key} {l : List Key} : a ∈ dedupKeys l ↔ a ∈ l := by
  simp [dedupKeys, mem_dedupKeysAux]

/-- `sdk.KVStorePrefixIterator`: the distinct keys of the store that carry
the given byte prefix, in ascending raw-key order.  (All loops of the
migration read only the iterator's keys, never its values, so iteration is
modelled as the ordered key list.) -/
def iterKeys (s : Store) (p : Key) : List Key :=
  sortKeys ((dedupKeys (s.map Prod.fst)).filter fun k => p.isPrefixOf k)

theorem mem_iterKeys {s : Store} {p k : Key} :
    k ∈ iterKeys s p ↔ k ∈ s.map Prod.fst ∧ p <+: k := by
  rw [iterKeys, mem_sortKeys, List.mem_filter, mem_dedupKeys,
    List.isPrefixOf_iff_prefix]

/-- Iteration of a `prefix.NewStore` view: global keys carrying
`pre ++ p` are yielded with the view's prefix `pre` stripped. -/
def prefixIterKeys (s : Store) (pre p : Key) : List Key :=
  (iterKeys s (pre ++ p)).map fun k => k.drop pre.length

theorem mem_prefixIterKeys_of_get {s : Store} {pre p rest : Key} {v : Value}
    (hget : get s (pre ++ (p ++ rest)) = some v) :
    p ++ rest ∈ prefixIterKeys s pre p := by
  have hmem : pre ++ (p ++ rest) ∈ s.map Prod.fst := by
    by_contra hc
    rw [← get_eq_none_iff] at hc
    rw [hc] at hget
    exact Option.noConfusion hget
  have hpfx : pre ++ p <+: pre ++ (p ++ rest) := by
    rw [← List.append_assoc]
    exact List.prefix_append _ _
  refine List.mem_map.mpr ⟨pre ++ (p ++ rest), mem_iterKeys.mpr ⟨hmem, hpfx⟩, ?_⟩
  exact List.drop_left _ _

/-- Every key yielded by a prefixed iteration is the stripped form of a
present global key that carries the full prefix. -/
theorem of_mem_prefixIterKeys {s : Store} {pre p k : Key}
    (h : k ∈ prefixIterKeys s pre p) :
    pre ++ k ∈ s.map Prod.fst ∧ p <+: k := by
  obtain ⟨g, hg, hdrop⟩ := List.mem_map.mp h
  obtain ⟨hmem, hpfx⟩ := mem_iterKeys.mp hg
  obtain ⟨t, ht⟩ := hpfx
  have hg' : g = pre ++ (p ++ t) := by rw [← ht, List.append_assoc]
  subst hg'
  rw [List.drop_left] at hdrop
  subst hdrop
  exact ⟨hmem, List.prefix_append _ _⟩

end KV

open KV

/-- `migrateSolomachine` (store.go lines 109-122): pure v1-to-v2 transform of
a solo machine client state. -/
def migrateSolomachine (clientState : ClientStateV1) : ClientStateSm :=
  let isFrozen := clientState.frozenSequence != 0
  let consensusState : SmConsensusState :=
    { publicKey := clientState.consensusState.publicKey
      diversifier := clientState.consensusState.diversifier
      timestamp := clientState.consensusState.timestamp }
  { sequence := clientState.sequence
    isFrozen := isFrozen
    consensusState := consensusState }

/-- The height-collection loop of `pruneSolomachineConsensusStates`
(store.go lines 131-140): keys splitting into exactly two segments whose
first segment is the consensus-state literal have their second segment
parsed by `MustParseHeight` (parse failure is the fatal panic, modelled as
`malformedHeightKey`); all other keys are skipped. -/
def collectPruneHeights : List Key → List Height → Except MigError (List Height)
  | [], hs => .ok hs
  | k :: ks, hs =>
    let keySplit := splitChar '/' k
    if keySplit.length ≠ 2 ∨ keySplit.getD 0 [] ≠ keyConsensusStatePfx then
      collectPruneHeights ks hs
    else
      match parseHeight (keySplit.getD 1 []) with
      | none => .error .malformedHeightKey
      | some h => collectPruneHeights ks (hs ++ [h])

/-- `pruneSolomachineConsensusStates` (store.go lines 126-146), acting on the
global store through the client's namespace `pre` (the `prefix.NewStore`
view): collect the heights of all consensus-state records, then delete each
reconstructed consensus-state key. -/
def pruneSolomachineConsensusStates (pre : Key) (clientStore : Store) :
    Except MigError Store :=
  match collectPruneHeights (prefixIterKeys clientStore pre keyConsensusStatePfx) [] with
  | .error e => .error e
  | .ok heights =>
    .ok (heights.foldl (fun s h => del s (pre ++ ConsensusStateKey h)) clientStore)

/-- The height-collection loop of `addConsensusMetadata` (store.go lines
156-164): every key splitting into exactly two segments has its second
segment parsed by `MustParseHeight` (parse failure is the fatal panic,
modelled as `malformedHeightKey`); there is no check on the first segment;
keys with any other segment count are skipped. -/
def collectMetaHeights : List Key → List Height → Except MigError (List Height)
  | [], hs => .ok hs
  | k :: ks, hs =>
    let keySplit := splitChar '/' k
    if keySplit.length ≠ 2 then collectMetaHeights ks hs
    else
      match parseHeight (keySplit.getD 1 []) with
      | none => .error .malformedHeightKey
      | some h => collectMetaHeights ks (hs ++ [h])

/-- Modelled from the spec: `ibctm.SetProcessedHeight` (external tendermint
light client package) stores the processed height value under the
processed-height marker key of the consensus height. -/
def setProcessedHeight (s : Store) (pre : Key) (h processed : Height) : Store :=
  set s (pre ++ ProcessedHeightKey h) (.heightVal processed)

/-- Modelled from the spec: `ibctm.SetIterationKey` (external tendermint
light client package) stores an ordering marker under the iteration key of
the consensus height; its value is opaque to the migration. -/
def setIterationKey (s : Store) (pre : Key) (h : Height) : Store :=
  set s (pre ++ IterationKey h) (.raw 0)

/-- `addConsensusMetadata` (store.go lines 151-172), acting on the global
store through the client's namespace `pre`: collect all consensus heights,
then set the processed-height marker (to the chain's current height
`selfHeight = clienttypes.GetSelfHeight(ctx)`) and the iteration marker for
each. -/
def addConsensusMetadata (selfHeight : Height) (pre : Key) (clientStore : Store) :
    Except MigError Store :=
  match collectMetaHeights (prefixIterKeys clientStore pre keyConsensusStatePfx) [] with
  | .error e => .error e
  | .ok heights =>
    .ok (heights.foldl
      (fun s h => setIterationKey (setProcessedHeight s pre h selfHeight) pre h)
      clientStore)

/-- The client registry scan of `MigrateStore` (store.go lines 30-45):
iterate every key under the global client namespace; a key whose final
separator-split segment is the client-state suffix contributes its second
segment as a client identifier. -/
def scanClients (store : Store) : List Key :=
  (iterKeys store keyClientStorePfx).foldl
    (fun clients k =>
      let keySplit := splitChar '/' k
      if keySplit.getLastD [] ≠ keyClientState then clients
      else clients ++ [keySplit.getD 1 []])
    []

/-- The spec's wording of the scan (§4.1): the second segment of every key
under the global client namespace whose final separator-split segment
equals the client-state suffix literal, in store iteration order. -/
def scanClientsSpec (store : Store) : List Key :=
  ((iterKeys store keyClientStorePfx).filter
      fun k => (splitChar '/' k).getLastD [] = keyClientState).map
    fun k => (splitChar '/' k).getD 1 []

/-- The per-client key namespace `"clients/{clientID}/"` (store.go line 53). -/
def clientPfx (clientID : Key) : Key :=
  keyClientStorePfx ++ '/' :: (clientID ++ ['/'])

/-- Locality contract of the external pruning routine
`ibctm.PruneAllExpiredConsensusStates` (spec §6): it is handed the client's
prefixed store view, so it reads and writes only keys under that client's
namespace. -/
def PruneLocal (prune : Key → ClientStateTm → Store → Store) : Prop :=
  ∀ pre cs s k, ¬ pre <+: k → get (prune pre cs s) k = get s k

/-- One iteration of the per-client loop of `MigrateStore` (store.go lines
47-103): parse the identifier, read the client-state record, and dispatch
on the type tag (solo machine: rewrite the record and prune; tendermint:
backfill metadata and invoke the external pruning routine; any other tag:
skip). -/
def migrateClient (selfHeight : Height) (prune : Key → ClientStateTm → Store → Store)
    (store : Store) (clientID : Key) : Except MigError Store :=
  match ParseClientIdentifier clientID with
  | none => .error .invalidIdentifier
  | some (clientType, _) =>
    match get store (clientPfx clientID ++ keyClientState) with
    | none => .error .clientNotFound
    | some bz =>
      if clientType = Solomachine then
        match unmarshalSolomachineV1 bz with
        | none => .error .decodeFailure
        | some clientState =>
          let updatedClientState := migrateSolomachine clientState
          pruneSolomachineConsensusStates (clientPfx clientID)
            (set store (clientPfx clientID ++ keyClientState)
              (marshalClientStateSm updatedClientState))
      else if clientType = Tendermint then
        match unmarshalInterface bz with
        | none => .error .decodeFailure
        | some (.tm tmClientState) =>
          match addConsensusMetadata selfHeight (clientPfx clientID) store with
          | .error e => .error e
          | .ok s1 => .ok (prune (clientPfx clientID) tmClientState s1)
        | some _ => .error .wrongClientType
      else
        .ok store

/-- `MigrateStore` (store.go lines 28-106): collect all client identifiers,
then migrate each in scan order, stopping at the first error.  `selfHeight`
is the chain's current height and `prune` the external tendermint pruning
routine, both external collaborators of the spec (§6). -/
def MigrateStore (selfHeight : Height) (prune : Key → ClientStateTm → Store → Store)
    (store : Store) : Except MigError Store :=
  (scanClients store).foldlM (migrateClient selfHeight prune) store

/-! Key-shape facts used by the frame and marker lemmas. -/

theorem ne_of_take_ne {l1 l2 : Key} (n : Nat) (h : l1.take n ≠ l2.take n) :
    l1 ≠ l2 := fun e => h (e ▸ rfl)

theorem take_two_ProcessedHeightKey (h : Height) :
    (ProcessedHeightKey h).take 2 = ['c', 'o'] := by
  unfold ProcessedHeightKey
  rw [show keyConsensusStatePfx ++ '/' :: (heightChars h ++ strKey "/processedHeight")
      = keyConsensusStatePfx ++ ('/' :: (heightChars h ++ strKey "/processedHeight")) from rfl]
  rw [List.take_append_of_le_length (by decide)]
  decide

theorem take_two_ConsensusStateKey (h : Height) :
    (ConsensusStateKey h).take 2 = ['c', 'o'] := by
  unfold ConsensusStateKey
  rw [List.take_append_of_le_length (by decide)]
  decide

theorem take_two_IterationKey (h : Height) :
    (IterationKey h).take 2 = ['i', 't'] := by
  unfold IterationKey
  rw [List.take_append_of_le_length (by decide)]
  decide

theorem IterationKey_ne_ProcessedHeightKey (h h' : Height) :
    IterationKey h ≠ ProcessedHeightKey h' := by
  apply ne_of_take_ne 2
  rw [take_two_IterationKey, take_two_ProcessedHeightKey]
  decide

theorem keyClientState_ne_ProcessedHeightKey (h : Height) :
    keyClientState ≠ ProcessedHeightKey h := by
  apply ne_of_take_ne 2
  rw [take_two_ProcessedHeightKey]
  decide

theorem keyClientState_ne_IterationKey (h : Height) :
    keyClientState ≠ IterationKey h := by
  apply ne_of_take_ne 2
  rw [take_two_IterationKey]
  decide

theorem keyClientState_ne_ConsensusStateKey (h : Height) :
    keyClientState ≠ ConsensusStateKey h := by
  apply ne_of_take_ne 2
  rw [take_two_ConsensusStateKey]
  decide

/-- The consensus-state record key splits into exactly the consensus-state
literal and the height string. -/
theorem splitChar_ConsensusStateKey (h : Height) :
    splitChar '/' (ConsensusStateKey h) = [keyConsensusStatePfx, heightChars h] := by
  unfold ConsensusStateKey
  rw [splitChar_append (by decide), splitChar_of_not_mem (not_slash_mem_heightChars h)]

theorem append_left_cancel_ne {pre a b : Key} (h : a ≠ b) : pre ++ a ≠ pre ++ b :=
  fun e => h (List.append_cancel_left e)

theorem ne_append_of_not_pfx {pre k x : Key} (h : ¬ pre <+: k) : k ≠ pre ++ x :=
  fun e => h (e ▸ List.prefix_append pre x)

/-! Facts about the height-collection loops. -/

theorem collectPruneHeights_subset {keys : List Key} {acc hs : List Height}
    (hok : collectPruneHeights keys acc = .ok hs) {h : Height} (hmem : h ∈ acc) :
    h ∈ hs := by
  induction keys generalizing acc with
  | nil =>
    simp only [collectPruneHeights] at hok
    cases hok
    exact hmem
  | cons k ks ih =>
    simp only [collectPruneHeights] at hok
    split at hok
    · exact ih hok hmem
    · cases hp : parseHeight ((splitChar '/' k).getD 1 []) with
      | none => rw [hp] at hok; exact absurd hok (by simp)
      | some h0 =>
        rw [hp] at hok
        exact ih hok (List.mem_append.mpr (Or.inl hmem))

theorem collectPruneHeights_mem {keys : List Key} {acc hs : List Height}
    (hok : collectPruneHeights keys acc = .ok hs) {k : Key} (hk : k ∈ keys)
    {b : Key} {h : Height} (hsp : splitChar '/' k = [keyConsensusStatePfx, b])
    (hp : parseHeight b = some h) : h ∈ hs := by
  induction keys generalizing acc with
  | nil => simp at hk
  | cons k0 ks ih =>
    simp only [collectPruneHeights] at hok
    rcases List.mem_cons.mp hk with he | hmem
    · subst he
      rw [if_neg (by rw [hsp]; simp)] at hok
      rw [hsp] at hok
      simp only [List.getD] at hok
      rw [show ([keyConsensusStatePfx, b].get? 1).getD [] = b from rfl] at hok
      rw [hp] at hok
      exact collectPruneHeights_subset hok (by simp)
    · split at hok
      · exact ih hok hmem
      · cases hp0 : parseHeight ((splitChar '/' k0).getD 1 []) with
        | none => rw [hp0] at hok; exact absurd hok (by simp)
        | some h0 =>
          rw [hp0] at hok
          exact ih hok hmem

theorem collectPruneHeights_error {keys : List Key} {acc : List Height}
    {k b : Key} (hk : k ∈ keys)
    (hsp : splitChar '/' k = [keyConsensusStatePfx, b])
    (hp : parseHeight b = none) :
    collectPruneHeights keys acc = .error .malformedHeightKey := by
  induction keys generalizing acc with
  | nil => simp at hk
  | cons k0 ks ih =>
    simp only [collectPruneHeights]
    rcases List.mem_cons.mp hk with he | hmem
    · subst he
      rw [if_neg (by rw [hsp]; simp)]
      rw [hsp]
      simp only [List.getD]
      rw [show ([keyConsensusStatePfx, b].get? 1).getD [] = b from rfl, hp]
    · split
      · exact ih hmem
      · cases hp0 : parseHeight ((splitChar '/' k0).getD 1 []) with
        | none => rfl
        | some h0 => exact ih hmem

theorem collectMetaHeights_subset {keys : List Key} {acc hs : List Height}
    (hok : collectMetaHeights keys acc = .ok hs) {h : Height} (hmem : h ∈ acc) :
    h ∈ hs := by
  induction keys generalizing acc with
  | nil =>
    simp only [collectMetaHeights] at hok
    cases hok
    exact hmem
  | cons k ks ih =>
    simp only [collectMetaHeights] at hok
    split at hok
    · exact ih hok hmem
    · cases hp : parseHeight ((splitChar '/' k).getD 1 []) with
      | none => rw [hp] at hok; exact absurd hok (by simp)
      | some h0 =>
        rw [hp] at hok
        exact ih hok (List.mem_append.mpr (Or.inl hmem))

theorem collectMetaHeights_mem {keys : List Key} {acc hs : List Height}
    (hok : collectMetaHeights keys acc = .ok hs) {k : Key} (hk : k ∈ keys)
    {a b : Key} {h : Height} (hsp : splitChar '/' k = [a, b])
    (hp : parseHeight b = some h) : h ∈ hs := by
  induction keys generalizing acc with
  | nil => simp at hk
  | cons k0 ks ih =>
    simp only [collectMetaHeights] at hok
    rcases List.mem_cons.mp hk with he | hmem
    · subst he
      rw [if_neg (by rw [hsp]; simp)] at hok
      rw [hsp] at hok
      simp only [List.getD] at hok
      rw [show ([a, b].get? 1).getD [] = b from rfl] at hok
      rw [hp] at hok
      exact collectMetaHeights_subset hok (by simp)
    · split at hok
      · exact ih hok hmem
      · cases hp0 : parseHeight ((splitChar '/' k0).getD 1 []) with
        | none => rw [hp0] at hok; exact absurd hok (by simp)
        | some h0 =>
          rw [hp0] at hok
          exact ih hok hmem

theorem collectMetaHeights_error {keys : List Key} {acc : List Height}
    {k a b : Key} (hk : k ∈ keys) (hsp : splitChar '/' k = [a, b])
    (hp : parseHeight b = none) :
    collectMetaHeights keys acc = .error .malformedHeightKey := by
  induction keys generalizing acc with
  | nil => simp at hk
  | cons k0 ks ih =>
    simp only [collectMetaHeights]
    rcases List.mem_cons.mp hk with he | hmem
    · subst he
      rw [if_neg (by rw [hsp]; simp)]
      rw [hsp]
      simp only [List.getD]
      rw [show ([a, b].get? 1).getD [] = b from rfl, hp]
    · split
      · exact ih hmem
      · cases hp0 : parseHeight ((splitChar '/' k0).getD 1 []) with
        | none => rfl
        | some h0 => exact ih hmem

theorem collectMetaHeights_ok {keys : List Key} {acc : List Height}
    (hgood : ∀ k ∈ keys, ∀ a b, splitChar '/' k = [a, b] → parseHeight b ≠ none) :
    ∃ hs, collectMetaHeights keys acc = .ok hs := by
  induction keys generalizing acc with
  | nil => exact ⟨acc, rfl⟩
  | cons k0 ks ih =>
    simp only [collectMetaHeights]
    split
    · exact ih fun k hk a b hsp => hgood k (List.mem_cons.mpr (Or.inr hk)) a b hsp
    · rename_i hlen
      rw [not_not] at hlen
      have h2 : ∃ a b, splitChar '/' k0 = [a, b] := by
        cases hsp : splitChar '/' k0 with
        | nil => rw [hsp] at hlen; simp at hlen
        | cons a t =>
          cases t with
          | nil => rw [hsp] at hlen; simp at hlen
          | cons b t2 =>
            cases t2 with
            | nil => exact ⟨a, b, rfl⟩
            | cons c t3 => rw [hsp] at hlen; simp at hlen
      obtain ⟨a, b, hsp⟩ := h2
      have hb : parseHeight b ≠ none := hgood k0 (by simp) a b hsp
      rw [hsp]
      simp only [List.getD]
      rw [show ([a, b].get? 1).getD [] = b from rfl]
      cases hp : parseHeight b with
      | none => exact absurd hp hb
      | some h0 =>
        exact ih fun k hk a' b' hsp' => hgood k (List.mem_cons.mpr (Or.inr hk)) a' b' hsp'

/-! Facts about the deletion and marker-writing folds. -/

theorem get_delFold_none {pre : Key} {hs : List Height} {s : Store} {k : Key}
    (h : get s k = none) :
    get (hs.foldl (fun s h => del s (pre ++ ConsensusStateKey h)) s) k = none := by
  induction hs generalizing s with
  | nil => exact h
  | cons h0 t ih =>
    apply ih
    rw [get_del]
    split <;> simp [h]

theorem get_delFold_mem {pre : Key} {hs : List Height} {s : Store} {h : Height}
    (hm : h ∈ hs) :
    get (hs.foldl (fun s h => del s (pre ++ ConsensusStateKey h)) s)
      (pre ++ ConsensusStateKey h) = none := by
  induction hs generalizing s with
  | nil => simp at hm
  | cons h0 t ih =>
    by_cases he : (pre ++ ConsensusStateKey h0) = (pre ++ ConsensusStateKey h)
    · simp only [List.foldl_cons]
      by_cases hmem : h ∈ t
      · exact ih hmem
      · apply get_delFold_none
        rw [← he]
        exact get_del_self _ _
    · rcases List.mem_cons.mp hm with h1 | h1
      · exact absurd (h1 ▸ rfl) he
      · exact ih h1

theorem get_delFold_other {pre : Key} {hs : List Height} {s : Store} {k : Key}
    (hk : ∀ h ∈ hs, k ≠ pre ++ ConsensusStateKey h) :
    get (hs.foldl (fun s h => del s (pre ++ ConsensusStateKey h)) s) k = get s k := by
  induction hs generalizing s with
  | nil => rfl
  | cons h0 t ih =>
    simp only [List.foldl_cons]
    rw [ih fun h hm => hk h (List.mem_cons.mpr (Or.inr hm))]
    exact get_del_ne _ fun he => hk h0 (by simp) he.symm

/-- The marker-writing step of `addConsensusMetadata` for one height. -/
theorem get_metaFold_processed {H : Height} {pre : Key} {hs : List Height}
    {s : Store} {h : Height}
    (hm : h ∈ hs ∨ get s (pre ++ ProcessedHeightKey h) = some (.heightVal H)) :
    get (hs.foldl (fun s h => setIterationKey (setProcessedHeight s pre h H) pre h) s)
      (pre ++ ProcessedHeightKey h) = some (.heightVal H) := by
  induction hs generalizing s with
  | nil =>
    rcases hm with h1 | h1
    · simp at h1
    · exact h1
  | cons h0 t ih =>
    simp only [List.foldl_cons]
    apply ih
    by_cases hmem : h ∈ t
    · exact Or.inl hmem
    · right
      unfold setIterationKey setProcessedHeight
      rw [get_set_ne _ (append_left_cancel_ne (IterationKey_ne_ProcessedHeightKey h0 h))]
      by_cases he : (pre ++ ProcessedHeightKey h0) = (pre ++ ProcessedHeightKey h)
      · rw [he, get_set_self]
      · rw [get_set_ne _ he]
        rcases hm with h1 | h1
        · rcases List.mem_cons.mp h1 with h2 | h2
          · exact absurd (h2 ▸ rfl) he
          · exact absurd h2 hmem
        · exact h1

theorem get_metaFold_iteration {H : Height} {pre : Key} {hs : List Height}
    {s : Store} {h : Height}
    (hm : h ∈ hs ∨ ∃ w, get s (pre ++ IterationKey h) = some w) :
    ∃ w, get (hs.foldl
        (fun s h => setIterationKey (setProcessedHeight s pre h H) pre h) s)
      (pre ++ IterationKey h) = some w := by
  induction hs generalizing s with
  | nil =>
    rcases hm with h1 | h1
    · simp at h1
    · exact h1
  | cons h0 t ih =>
    simp only [List.foldl_cons]
    apply ih
    by_cases hmem : h ∈ t
    · exact Or.inl hmem
    · right
      unfold setIterationKey setProcessedHeight
      by_cases he : (pre ++ IterationKey h0) = (pre ++ IterationKey h)
      · exact ⟨.raw 0, by rw [he, get_set_self]⟩
      · rw [get_set_ne _ he]
        by_cases he2 : (pre ++ ProcessedHeightKey h0) = (pre ++ IterationKey h)
        · exact ⟨.heightVal H, by rw [he2, get_set_self]⟩
        · rw [get_set_ne _ he2]
          rcases hm with h1 | h1
          · rcases List.mem_cons.mp h1 with h2 | h2
            · exact absurd (h2 ▸ rfl) he
            · exact absurd h2 hmem
          · exact h1

theorem get_metaFold_other {H : Height} {pre : Key} {hs : List Height}
    {s : Store} {k : Key}
    (hk : ∀ h ∈ hs, k ≠ pre ++ ProcessedHeightKey h ∧ k ≠ pre ++ IterationKey h) :
    get (hs.foldl (fun s h => setIterationKey (setProcessedHeight s pre h H) pre h) s) k
      = get s k := by
  induction hs generalizing s with
  | nil => rfl
  | cons h0 t ih =>
    simp only [List.foldl_cons]
    rw [ih fun h hm => hk h (List.mem_cons.mpr (Or.inr hm))]
    unfold setIterationKey setProcessedHeight
    rw [get_set_ne _ fun he => (hk h0 (by simp)).2 he.symm,
      get_set_ne _ fun he => (hk h0 (by simp)).1 he.symm]

/-! Pass-level lemmas for the solo machine consensus-state pruning. -/

/-- After a successful pruning pass no consensus-state record key of the
client remains. -/
theorem prune_consensus_none {pre : Key} {s s' : Store}
    (hok : pruneSolomachineConsensusStates pre s = .ok s') (h : Height) :
    get s' (pre ++ ConsensusStateKey h) = none := by
  unfold pruneSolomachineConsensusStates at hok
  cases hc : collectPruneHeights (prefixIterKeys s pre keyConsensusStatePfx) [] with
  | error e => rw [hc] at hok; exact absurd hok (by simp)
  | ok heights =>
    rw [hc] at hok
    simp only [Except.ok.injEq] at hok
    subst hok
    cases hg : get s (pre ++ ConsensusStateKey h) with
    | none => exact get_delFold_none hg
    | some v =>
      apply get_delFold_mem
      have hg' : get s (pre ++ (keyConsensusStatePfx ++ '/' :: heightChars h)) = some v := by
        rw [← hg]; rfl
      have hmem := mem_prefixIterKeys_of_get hg'
      exact collectPruneHeights_mem hc
        (by rw [show keyConsensusStatePfx ++ '/' :: heightChars h
              = ConsensusStateKey h from rfl] at hmem; exact hmem)
        (splitChar_ConsensusStateKey h) (parseHeight_heightChars h)

/-- The pruning pass touches only reconstructed consensus-state record keys
of its client. -/
theorem prune_frame {pre : Key} {s s' : Store}
    (hok : pruneSolomachineConsensusStates pre s = .ok s') {k : Key}
    (hk : ∀ h : Height, k ≠ pre ++ ConsensusStateKey h) :
    get s' k = get s k := by
  unfold pruneSolomachineConsensusStates at hok
  cases hc : collectPruneHeights (prefixIterKeys s pre keyConsensusStatePfx) [] with
  | error e => rw [hc] at hok; exact absurd hok (by simp)
  | ok heights =>
    rw [hc] at hok
    simp only [Except.ok.injEq] at hok
    subst hok
    exact get_delFold_other fun h _ => hk h

/-- A present malformed consensus-state key makes the pruning pass fail. -/
theorem prune_error_of_malformed {pre seg : Key} {s : Store} {v : Value}
    (hget : get s (pre ++ (keyConsensusStatePfx ++ '/' :: seg)) = some v)
    (hslash : '/' ∉ seg) (hp : parseHeight seg = none) :
    pruneSolomachineConsensusStates pre s = .error .malformedHeightKey := by
  unfold pruneSolomachineConsensusStates
  have hmem := mem_prefixIterKeys_of_get hget
  rw [collectPruneHeights_error hmem
    (by rw [splitChar_append (by decide), splitChar_of_not_mem hslash]) hp]

/-! Pass-level lemmas for the consensus metadata backfill. -/

/-- Any iterated two-segment key of a successful backfill pass, whatever its
first segment, yields both markers for its parsed height. -/
theorem addCM_markers_of_key {H : Height} {pre : Key} {s s' : Store}
    (hok : addConsensusMetadata H pre s = .ok s') {k a b : Key} {h : Height}
    (hkmem : k ∈ prefixIterKeys s pre keyConsensusStatePfx)
    (hsp : splitChar '/' k = [a, b]) (hp : parseHeight b = some h) :
    get s' (pre ++ ProcessedHeightKey h) = some (.heightVal H)
      ∧ ∃ w, get s' (pre ++ IterationKey h) = some w := by
  unfold addConsensusMetadata at hok
  cases hc : collectMetaHeights (prefixIterKeys s pre keyConsensusStatePfx) [] with
  | error e => rw [hc] at hok; exact absurd hok (by simp)
  | ok heights =>
    rw [hc] at hok
    simp only [Except.ok.injEq] at hok
    subst hok
    have hm := collectMetaHeights_mem hc hkmem hsp hp
    exact ⟨get_metaFold_processed (Or.inl hm), get_metaFold_iteration (Or.inl hm)⟩

/-- Every consensus-state record key of a successful backfill pass yields
both markers for its height. -/
theorem addCM_markers {H : Height} {pre : Key} {s s' : Store}
    (hok : addConsensusMetadata H pre s = .ok s') {h : Height} {v : Value}
    (hg : get s (pre ++ ConsensusStateKey h) = some v) :
    get s' (pre ++ ProcessedHeightKey h) = some (.heightVal H)
      ∧ ∃ w, get s' (pre ++ IterationKey h) = some w := by
  have hg' : get s (pre ++ (keyConsensusStatePfx ++ '/' :: heightChars h)) = some v := by
    rw [← hg]; rfl
  have hmem := mem_prefixIterKeys_of_get hg'
  exact addCM_markers_of_key hok
    (by rw [show keyConsensusStatePfx ++ '/' :: heightChars h
          = ConsensusStateKey h from rfl] at hmem; exact hmem)
    (splitChar_ConsensusStateKey h) (parseHeight_heightChars h)

/-- The backfill pass writes only marker keys of its client. -/
theorem addCM_frame {H : Height} {pre : Key} {s s' : Store}
    (hok : addConsensusMetadata H pre s = .ok s') {k : Key}
    (hk : ∀ h : Height, k ≠ pre ++ ProcessedHeightKey h ∧ k ≠ pre ++ IterationKey h) :
    get s' k = get s k := by
  unfold addConsensusMetadata at hok
  cases hc : collectMetaHeights (prefixIterKeys s pre keyConsensusStatePfx) [] with
  | error e => rw [hc] at hok; exact absurd hok (by simp)
  | ok heights =>
    rw [hc] at hok
    simp only [Except.ok.injEq] at hok
    subst hok
    exact get_metaFold_other fun h _ => hk h

/-- The backfill pass leaves the client-state record untouched. -/
theorem addCM_clientState {H : Height} {pre : Key} {s s' : Store}
    (hok : addConsensusMetadata H pre s = .ok s') :
    get s' (pre ++ keyClientState) = get s (pre ++ keyClientState) :=
  addCM_frame hok fun h =>
    ⟨append_left_cancel_ne (keyClientState_ne_ProcessedHeightKey h),
     append_left_cancel_ne (keyClientState_ne_IterationKey h)⟩

/-- A present malformed two-segment key makes the backfill pass fail. -/
theorem addCM_error_of_malformed {H : Height} {pre seg : Key} {s : Store} {v : Value}
    (hget : get s (pre ++ (keyConsensusStatePfx ++ '/' :: seg)) = some v)
    (hslash : '/' ∉ seg) (hp : parseHeight seg = none) :
    addConsensusMetadata H pre s = .error .malformedHeightKey := by
  unfold addConsensusMetadata
  have hmem := mem_prefixIterKeys_of_get hget
  rw [collectMetaHeights_error hmem
    (by rw [splitChar_append (by decide), splitChar_of_not_mem hslash]) hp]

/-- The backfill pass succeeds when every iterated two-segment key parses. -/
theorem addCM_ok_of_good {H : Height} {pre : Key} {s : Store}
    (hgood : ∀ k ∈ prefixIterKeys s pre keyConsensusStatePfx,
      ∀ a b, splitChar '/' k = [a, b] → parseHeight b ≠ none) :
    ∃ s', addConsensusMetadata H pre s = .ok s' := by
  unfold addConsensusMetadata
  obtain ⟨hs, hc⟩ := @collectMetaHeights_ok _ [] hgood
  rw [hc]
  exact ⟨_, rfl⟩

/-! Facts about the client registry scan. -/

theorem foldl_scan_step (keys : List Key) (acc : List Key) :
    keys.foldl
      (fun clients k =>
        if (splitChar '/' k).getLastD [] ≠ keyClientState then clients
        else clients ++ [(splitChar '/' k).getD 1 []]) acc
    = acc ++ ((keys.filter
          fun k => (splitChar '/' k).getLastD [] = keyClientState).map
        fun k => (splitChar '/' k).getD 1 []) := by
  induction keys generalizing acc with
  | nil => simp
  | cons k ks ih =>
    simp only [List.foldl_cons]
    by_cases hq : (splitChar '/' k).getLastD [] = keyClientState
    · rw [if_neg (not_not_intro hq), ih]
      simp only [List.filter_cons]
      rw [if_pos (show decide ((splitChar '/' k).getLastD [] = keyClientState) = true
          from decide_eq_true hq), List.map_cons, List.append_assoc]
      rfl
    · rw [if_pos hq, ih]
      simp only [List.filter_cons]
      rw [if_neg (show ¬ decide ((splitChar '/' k).getLastD [] = keyClientState) = true
          from by simpa using hq)]

/-- The scan loop produces exactly the spec's filter-and-project result. -/
theorem scanClients_eq_spec (store : Store) :
    scanClients store = scanClientsSpec store := by
  unfold scanClients scanClientsSpec
  rw [foldl_scan_step]
  simp

/-- Any position-one segment of a separator split is separator-free. -/
theorem no_slash_getD_one (k : Key) : '/' ∉ (splitChar '/' k).getD 1 [] := by
  rw [List.getD_eq_getElem?_getD]
  cases h : (splitChar '/' k)[1]? with
  | none => simp
  | some seg =>
    obtain ⟨hlt, hg⟩ := List.getElem?_eq_some_iff.mp h
    have hmem : seg ∈ splitChar '/' k := hg ▸ List.getElem_mem hlt
    simpa using not_mem_of_mem_splitChar hmem

/-- Every scanned identifier is separator-free. -/
theorem no_slash_of_mem_scanClients {store : Store} {id : Key}
    (h : id ∈ scanClients store) : '/' ∉ id := by
  rw [scanClients_eq_spec] at h
  unfold scanClientsSpec at h
  obtain ⟨k, _, hk⟩ := List.mem_map.mp h
  exact hk ▸ no_slash_getD_one k

theorem clientKey_eq (id : Key) : clientPfx id ++ keyClientState
    = strKey "clients" ++ '/' :: (id ++ '/' :: keyClientState) := by
  unfold clientPfx keyClientStorePfx
  simp [List.append_assoc]

theorem splitChar_clientKey {id : Key} (hslash : '/' ∉ id) :
    splitChar '/' (clientPfx id ++ keyClientState)
      = [strKey "clients", id, keyClientState] := by
  rw [clientKey_eq, splitChar_append (by decide), splitChar_append hslash,
    splitChar_of_not_mem (by decide)]

/-- A client whose client-state record is present in the canonical key slot
is collected by the scan. -/
theorem mem_scanClients {store : Store} {id : Key} {v : Value} (hslash : '/' ∉ id)
    (hget : get store (clientPfx id ++ keyClientState) = some v) :
    id ∈ scanClients store := by
  rw [scanClients_eq_spec]
  unfold scanClientsSpec
  apply List.mem_map.mpr
  refine ⟨clientPfx id ++ keyClientState, List.mem_filter.mpr ⟨?_, ?_⟩, ?_⟩
  · apply mem_iterKeys.mpr
    constructor
    · by_contra hc
      rw [← get_eq_none_iff] at hc
      rw [hc] at hget
      exact Option.noConfusion hget
    · rw [clientKey_eq]
      exact List.prefix_append _ _
  · rw [splitChar_clientKey hslash]
    simp [List.getLastD]
  · rw [splitChar_clientKey hslash]
    simp [List.getD]

/-! Disjointness of distinct client namespaces. -/

theorem slashfree_prefix_eq {a b u v : Key} (ha : '/' ∉ a) (hb : '/' ∉ b)
    (h : a ++ '/' :: u <+: b ++ '/' :: v) : a = b := by
  induction a generalizing b with
  | nil =>
    cases b with
    | nil => rfl
    | cons c b' =>
      rw [List.nil_append, List.cons_append, List.cons_prefix_cons] at h
      exact absurd (h.1 ▸ List.mem_cons_self c b') hb
  | cons c a' ih =>
    cases b with
    | nil =>
      rw [List.cons_append, List.nil_append, List.cons_prefix_cons] at h
      exact absurd (h.1 ▸ List.mem_cons_self c a') ha
    | cons d b' =>
      rw [List.cons_append, List.cons_append, List.cons_prefix_cons] at h
      have ha' : '/' ∉ a' := fun hm => ha (List.mem_cons.mpr (Or.inr hm))
      have hb' : '/' ∉ b' := fun hm => hb (List.mem_cons.mpr (Or.inr hm))
      rw [h.1, ih ha' hb' h.2]

/-- Namespaces of distinct separator-free client identifiers never nest. -/
theorem clientPfx_not_nested {a b : Key} (ha : '/' ∉ a) (hb : '/' ∉ b)
    (hne : a ≠ b) (rest : Key) : ¬ clientPfx a <+: clientPfx b ++ rest := by
  intro h
  apply hne
  unfold clientPfx keyClientStorePfx at h
  rw [List.append_assoc, List.prefix_append_right_inj, List.cons_append,
    List.cons_prefix_cons] at h
  have h2 := h.2
  rw [List.append_assoc] at h2
  exact slashfree_prefix_eq ha hb h2

/-! Unfoldings of the per-client migration step. -/

theorem migrateClient_invalid {H : Height} {pr : Key → ClientStateTm → Store → Store}
    {s : Store} {id : Key} (hid : ParseClientIdentifier id = none) :
    migrateClient H pr s id = .error .invalidIdentifier := by
  unfold migrateClient
  rw [hid]

theorem migrateClient_notFound {H : Height} {pr : Key → ClientStateTm → Store → Store}
    {s : Store} {id tag : Key} {n : Nat}
    (hid : ParseClientIdentifier id = some (tag, n))
    (hget : get s (clientPfx id ++ keyClientState) = none) :
    migrateClient H pr s id = .error .clientNotFound := by
  unfold migrateClient
  rw [hid]
  dsimp only
  rw [hget]

theorem migrateClient_skip {H : Height} {pr : Key → ClientStateTm → Store → Store}
    {s : Store} {id tag : Key} {n : Nat} {bz : Value}
    (hid : ParseClientIdentifier id = some (tag, n))
    (hs : tag ≠ Solomachine) (ht : tag ≠ Tendermint)
    (hget : get s (clientPfx id ++ keyClientState) = some bz) :
    migrateClient H pr s id = .ok s := by
  unfold migrateClient
  rw [hid]
  dsimp only
  rw [hget]
  dsimp only
  rw [if_neg hs, if_neg ht]

theorem migrateClient_solo {H : Height} {pr : Key → ClientStateTm → Store → Store}
    {s s' : Store} {id : Key} {n : Nat} {v : ClientStateV1}
    (hid : ParseClientIdentifier id = some (Solomachine, n))
    (hget : get s (clientPfx id ++ keyClientState) = some (.smV1 v))
    (hok : migrateClient H pr s id = .ok s') :
    get s' (clientPfx id ++ keyClientState) = some (.smV2 (migrateSolomachine v))
      ∧ ∀ h : Height, get s' (clientPfx id ++ ConsensusStateKey h) = none := by
  unfold migrateClient at hok
  rw [hid] at hok
  dsimp only at hok
  rw [hget] at hok
  dsimp only at hok
  rw [if_pos rfl] at hok
  dsimp only [unmarshalSolomachineV1, marshalClientStateSm] at hok
  constructor
  · rw [prune_frame hok
      fun h => append_left_cancel_ne (keyClientState_ne_ConsensusStateKey h)]
    exact get_set_self _ _ _
  · exact fun h => prune_consensus_none hok h

theorem migrateClient_solo_smV2_error {H : Height}
    {pr : Key → ClientStateTm → Store → Store} {s : Store} {id : Key} {n : Nat}
    {w : ClientStateSm}
    (hid : ParseClientIdentifier id = some (Solomachine, n))
    (hget : get s (clientPfx id ++ keyClientState) = some (.smV2 w)) :
    migrateClient H pr s id = .error .decodeFailure := by
  unfold migrateClient
  rw [hid]
  dsimp only
  rw [hget]
  dsimp only
  rw [if_pos rfl]
  rfl

theorem migrateClient_wrongType {H : Height}
    {pr : Key → ClientStateTm → Store → Store} {s : Store} {id : Key} {n : Nat}
    {bz : Value} {d : DecodedClientState}
    (hid : ParseClientIdentifier id = some (Tendermint, n))
    (hget : get s (clientPfx id ++ keyClientState) = some bz)
    (hun : unmarshalInterface bz = some d)
    (hd : ∀ cs, d ≠ .tm cs) :
    migrateClient H pr s id = .error .wrongClientType := by
  unfold migrateClient
  rw [hid]
  dsimp only
  rw [hget]
  dsimp only
  rw [if_neg (by decide), if_pos rfl, hun]
  cases d with
  | tm cs => exact absurd rfl (hd cs)
  | smV2 cs => rfl
  | other t => rfl

theorem migrateClient_tm {H : Height} {pr : Key → ClientStateTm → Store → Store}
    {s : Store} {id : Key} {n : Nat} {cs : ClientStateTm}
    (hid : ParseClientIdentifier id = some (Tendermint, n))
    (hget : get s (clientPfx id ++ keyClientState) = some (.tm cs)) :
    migrateClient H pr s id
      = Except.map (pr (clientPfx id) cs) (addConsensusMetadata H (clientPfx id) s) := by
  unfold migrateClient
  rw [hid]
  dsimp only
  rw [hget]
  dsimp only
  rw [if_neg (by decide), if_pos rfl]
  cases hcm : addConsensusMetadata H (clientPfx id) s with
  | error e => rfl
  | ok s1 => rfl

/-- A successful migration step of one client never touches keys outside
that client's namespace. -/
theorem migrateClient_frame {H : Height} {pr : Key → ClientStateTm → Store → Store}
    (hpr : PruneLocal pr) {s s' : Store} {id : Key}
    (hok : migrateClient H pr s id = .ok s') {k : Key}
    (hk : ¬ clientPfx id <+: k) : get s' k = get s k := by
  unfold migrateClient at hok
  cases hpi : ParseClientIdentifier id with
  | none => rw [hpi] at hok; exact absurd hok (by simp)
  | some p =>
    obtain ⟨tag, n⟩ := p
    rw [hpi] at hok
    dsimp only at hok
    cases hbz : get s (clientPfx id ++ keyClientState) with
    | none => rw [hbz] at hok; exact absurd hok (by simp)
    | some bz =>
      rw [hbz] at hok
      dsimp only at hok
      by_cases hsolo : tag = Solomachine
      · rw [if_pos hsolo] at hok
        cases hun : unmarshalSolomachineV1 bz with
        | none => rw [hun] at hok; exact absurd hok (by simp)
        | some w =>
          rw [hun] at hok
          dsimp only [marshalClientStateSm] at hok
          rw [prune_frame hok fun h => ne_append_of_not_pfx hk]
          exact get_set_ne _ (Ne.symm (ne_append_of_not_pfx hk))
      · rw [if_neg hsolo] at hok
        by_cases htm : tag = Tendermint
        · rw [if_pos htm] at hok
          cases hun : unmarshalInterface bz with
          | none => rw [hun] at hok; exact absurd hok (by simp)
          | some d =>
            rw [hun] at hok
            cases d with
            | tm cs =>
              cases hcm : addConsensusMetadata H (clientPfx id) s with
              | error e => rw [hcm] at hok; exact absurd hok (by simp)
              | ok s1 =>
                rw [hcm] at hok
                simp only [Except.ok.injEq] at hok
                subst hok
                rw [hpr _ _ _ _ hk]
                exact addCM_frame hcm fun h =>
                  ⟨ne_append_of_not_pfx hk, ne_append_of_not_pfx hk⟩
            | smV2 cs => exact absurd hok (by simp)
            | other t => exact absurd hok (by simp)
        · rw [if_neg htm] at hok
          simp only [Except.ok.injEq] at hok
          subst hok
          rfl

/-! Facts about the per-client fold of the orchestrator. -/

theorem bind_error_eq {ε α β : Type} {e : ε} {f : α → Except ε β} :
    (Except.error e >>= f : Except ε β) = .error e := rfl

theorem bind_ok_eq {ε α β : Type} {a : α} {f : α → Except ε β} :
    (Except.ok a >>= f : Except ε β) = f a := rfl

/-- Through the per-client fold, a pending legacy solo machine client
(first disjunct) ends migrated, and an already migrated one (second
disjunct) stays migrated. -/
theorem foldClients_solo {H : Height} {pr : Key → ClientStateTm → Store → Store}
    (hpr : PruneLocal pr) {id : Key} {n : Nat} {v : ClientStateV1}
    (hid : ParseClientIdentifier id = some (Solomachine, n)) (hids : '/' ∉ id) :
    ∀ (l : List Key) (s s' : Store), (∀ id' ∈ l, '/' ∉ id') →
    l.foldlM (migrateClient H pr) s = .ok s' →
    ((get s (clientPfx id ++ keyClientState) = some (.smV1 v) ∧ id ∈ l)
      ∨ (get s (clientPfx id ++ keyClientState) = some (.smV2 (migrateSolomachine v))
          ∧ ∀ h : Height, get s (clientPfx id ++ ConsensusStateKey h) = none)) →
    (get s' (clientPfx id ++ keyClientState) = some (.smV2 (migrateSolomachine v))
      ∧ ∀ h : Height, get s' (clientPfx id ++ ConsensusStateKey h) = none) := by
  intro l
  induction l with
  | nil =>
    intro s s' _ hfold hstate
    rw [List.foldlM_nil] at hfold
    simp only [pure, Except.pure, Except.ok.injEq] at hfold
    subst hfold
    rcases hstate with ⟨_, hmem⟩ | hQ
    · simp at hmem
    · exact hQ
  | cons a l' ih =>
    intro s s' hall hfold hstate
    rw [List.foldlM_cons] at hfold
    cases hstep : migrateClient H pr s a with
    | error e =>
      rw [hstep, bind_error_eq] at hfold
      exact absurd hfold (by simp)
    | ok s1 =>
      rw [hstep, bind_ok_eq] at hfold
      have hall' : ∀ id' ∈ l', '/' ∉ id' :=
        fun id' hm => hall id' (List.mem_cons.mpr (Or.inr hm))
      have has : '/' ∉ a := hall a (by simp)
      rcases hstate with ⟨hP, hmem⟩ | ⟨hQ1, hQ2⟩
      · by_cases ha : a = id
        · subst ha
          have hQ := migrateClient_solo hid hP hstep
          exact ih s1 s' hall' hfold (Or.inr hQ)
        · have hmem' : id ∈ l' := by
            rcases List.mem_cons.mp hmem with h1 | h1
            · exact absurd h1.symm ha
            · exact h1
          have hfr := migrateClient_frame hpr hstep
            (clientPfx_not_nested has hids ha keyClientState)
          exact ih s1 s' hall' hfold (Or.inl ⟨hfr ▸ hP, hmem'⟩)
      · by_cases ha : a = id
        · subst ha
          rw [migrateClient_solo_smV2_error hid hQ1] at hstep
          exact absurd hstep (by simp)
        · have hfr1 := migrateClient_frame hpr hstep
            (clientPfx_not_nested has hids ha keyClientState)
          have hfr2 : ∀ h : Height,
              get s1 (clientPfx id ++ ConsensusStateKey h) = none := fun h => by
            rw [migrateClient_frame hpr hstep
              (clientPfx_not_nested has hids ha (ConsensusStateKey h))]
            exact hQ2 h
          exact ih s1 s' hall' hfold (Or.inr ⟨hfr1 ▸ hQ1, hfr2⟩)

/-- Through the per-client fold, every key of a skipped (unknown-tag) client
keeps the value it had in the original store. -/
theorem foldClients_skip {H : Height} {pr : Key → ClientStateTm → Store → Store}
    (hpr : PruneLocal pr) {id tag : Key} {n : Nat} (hids : '/' ∉ id)
    (hid : ParseClientIdentifier id = some (tag, n))
    (hs : tag ≠ Solomachine) (ht : tag ≠ Tendermint)
    {store : Store} {bz : Value}
    (hbz : get store (clientPfx id ++ keyClientState) = some bz) :
    ∀ (l : List Key) (s s' : Store), (∀ id' ∈ l, '/' ∉ id') →
    l.foldlM (migrateClient H pr) s = .ok s' →
    (∀ k, clientPfx id <+: k → get s k = get store k) →
    (∀ k, clientPfx id <+: k → get s' k = get store k) := by
  intro l
  induction l with
  | nil =>
    intro s s' _ hfold hR
    rw [List.foldlM_nil] at hfold
    simp only [pure, Except.pure, Except.ok.injEq] at hfold
    subst hfold
    exact hR
  | cons a l' ih =>
    intro s s' hall hfold hR
    rw [List.foldlM_cons] at hfold
    cases hstep : migrateClient H pr s a with
    | error e =>
      rw [hstep, bind_error_eq] at hfold
      exact absurd hfold (by simp)
    | ok s1 =>
      rw [hstep, bind_ok_eq] at hfold
      have hall' : ∀ id' ∈ l', '/' ∉ id' :=
        fun id' hm => hall id' (List.mem_cons.mpr (Or.inr hm))
      have has : '/' ∉ a := hall a (by simp)
      by_cases ha : a = id
      · subst ha
        have hgs : get s (clientPfx a ++ keyClientState) = some bz := by
          rw [hR _ (List.prefix_append _ _)]
          exact hbz
        rw [migrateClient_skip hid hs ht hgs] at hstep
        simp only [Except.ok.injEq] at hstep
        subst hstep
        exact ih s s' hall' hfold hR
      · refine ih s1 s' hall' hfold fun k hk => ?_
        obtain ⟨rest, hrest⟩ := hk
        rw [migrateClient_frame hpr hstep
          (by rw [← hrest]; exact clientPfx_not_nested has hids ha rest)]
        exact hR k ⟨rest, hrest⟩

/-- A scanned identifier that always fails its step poisons the fold. -/
theorem foldClients_poison {H : Height} {pr : Key → ClientStateTm → Store → Store}
    {id : Key} (hid : ParseClientIdentifier id = none) :
    ∀ (l : List Key) (s : Store), id ∈ l →
    ∃ e, l.foldlM (migrateClient H pr) s = .error e := by
  intro l
  induction l with
  | nil => intro s hmem; simp at hmem
  | cons a l' ih =>
    intro s hmem
    rw [List.foldlM_cons]
    cases hstep : migrateClient H pr s a with
    | error e => exact ⟨e, bind_error_eq⟩
    | ok s1 =>
      by_cases ha : a = id
      · subst ha
        rw [migrateClient_invalid hid] at hstep
        exact absurd hstep (by simp)
      · have hmem' : id ∈ l' := by
          rcases List.mem_cons.mp hmem with h1 | h1
          · exact absurd h1.symm ha
          · exact h1
        obtain ⟨e, he⟩ := ih s1 hmem'
        exact ⟨e, by rw [bind_ok_eq]; exact he⟩

/-!
A store-event trace semantics of the migration, used to settle the
iterator-discipline claim.  The events record, in the source's operational
order, each iterator opening (`sdk.KVStorePrefixIterator`), each key the
iterator yields, each point write and delete, and each iterator close; a
`defer iterator.Close()` runs when the enclosing Go function returns, so
each close event is emitted at pass exit, after that pass's mutations.  The
events of the external `ibctm.PruneAllExpiredConsensusStates` routine are
outside the modelled core and not traced.
-/

/-- A store event: iterator open/advance/close over a byte prefix, point
write, point delete. -/
inductive Ev where
  | iopen (p : Key)
  | inext (k : Key)
  | iclose (p : Key)
  | wset (k : Key)
  | wdel (k : Key)
deriving DecidableEq, Repr

/-- Event trace of the collection loop of `pruneSolomachineConsensusStates`:
one iterator advance per key, stopping at a malformed height. -/
def collectPruneHeightsT (pre : Key) :
    List Key → List Height → List Ev × Except MigError (List Height)
  | [], hs => ([], .ok hs)
  | k :: ks, hs =>
    let keySplit := splitChar '/' k
    if keySplit.length ≠ 2 ∨ keySplit.getD 0 [] ≠ keyConsensusStatePfx then
      let r := collectPruneHeightsT pre ks hs
      (.inext (pre ++ k) :: r.1, r.2)
    else
      match parseHeight (keySplit.getD 1 []) with
      | none => ([.inext (pre ++ k)], .error .malformedHeightKey)
      | some h =>
        let r := collectPruneHeightsT pre ks (hs ++ [h])
        (.inext (pre ++ k) :: r.1, r.2)

/-- Event trace of `pruneSolomachineConsensusStates`: open the iterator,
collect, delete the collected keys, and close at function exit. -/
def pruneSolomachineConsensusStatesT (pre : Key) (clientStore : Store) :
    List Ev × Except MigError Store :=
  let p := pre ++ keyConsensusStatePfx
  let r := collectPruneHeightsT pre (prefixIterKeys clientStore pre keyConsensusStatePfx) []
  match r.2 with
  | .error e => (.iopen p :: r.1 ++ [.iclose p], .error e)
  | .ok heights =>
    (.iopen p :: r.1 ++ heights.map (fun h => Ev.wdel (pre ++ ConsensusStateKey h))
        ++ [.iclose p],
     .ok (heights.foldl (fun s h => del s (pre ++ ConsensusStateKey h)) clientStore))

/-- Event trace of the collection loop of `addConsensusMetadata`. -/
def collectMetaHeightsT (pre : Key) :
    List Key → List Height → List Ev × Except MigError (List Height)
  | [], hs => ([], .ok hs)
  | k :: ks, hs =>
    let keySplit := splitChar '/' k
    if keySplit.length ≠ 2 then
      let r := collectMetaHeightsT pre ks hs
      (.inext (pre ++ k) :: r.1, r.2)
    else
      match parseHeight (keySplit.getD 1 []) with
      | none => ([.inext (pre ++ k)], .error .malformedHeightKey)
      | some h =>
        let r := collectMetaHeightsT pre ks (hs ++ [h])
        (.inext (pre ++ k) :: r.1, r.2)

/-- Event trace of `addConsensusMetadata`: open the iterator, collect, write
both markers per height, and close at function exit. -/
def addConsensusMetadataT (selfHeight : Height) (pre : Key) (clientStore : Store) :
    List Ev × Except MigError Store :=
  let p := pre ++ keyConsensusStatePfx
  let r := collectMetaHeightsT pre (prefixIterKeys clientStore pre keyConsensusStatePfx) []
  match r.2 with
  | .error e => (.iopen p :: r.1 ++ [.iclose p], .error e)
  | .ok heights =>
    (.iopen p :: r.1
        ++ (heights.map fun h =>
            [Ev.wset (pre ++ ProcessedHeightKey h), Ev.wset (pre ++ IterationKey h)]).flatten
        ++ [.iclose p],
     .ok (heights.foldl
       (fun s h => setIterationKey (setProcessedHeight s pre h selfHeight) pre h)
       clientStore))

/-- Event trace of one per-client migration step. -/
def migrateClientT (selfHeight : Height) (prune : Key → ClientStateTm → Store → Store)
    (store : Store) (clientID : Key) : List Ev × Except MigError Store :=
  match ParseClientIdentifier clientID with
  | none => ([], .error .invalidIdentifier)
  | some (clientType, _) =>
    match get store (clientPfx clientID ++ keyClientState) with
    | none => ([], .error .clientNotFound)
    | some bz =>
      if clientType = Solomachine then
        match unmarshalSolomachineV1 bz with
        | none => ([], .error .decodeFailure)
        | some clientState =>
          let r := pruneSolomachineConsensusStatesT (clientPfx clientID)
            (set store (clientPfx clientID ++ keyClientState)
              (marshalClientStateSm (migrateSolomachine clientState)))
          (.wset (clientPfx clientID ++ keyClientState) :: r.1, r.2)
      else if clientType = Tendermint then
        match unmarshalInterface bz with
        | none => ([], .error .decodeFailure)
        | some (.tm tmClientState) =>
          let r := addConsensusMetadataT selfHeight (clientPfx clientID) store
          match r.2 with
          | .error e => (r.1, .error e)
          | .ok s1 => (r.1, .ok (prune (clientPfx clientID) tmClientState s1))
        | some _ => ([], .error .wrongClientType)
      else
        ([], .ok store)

/-- Event trace of the per-client loop. -/
def migrateClientsT (selfHeight : Height) (prune : Key → ClientStateTm → Store → Store) :
    List Key → Store → List Ev × Except MigError Store
  | [], s => ([], .ok s)
  | id :: ids, s =>
    let r := migrateClientT selfHeight prune s id
    match r.2 with
    | .error e => (r.1, .error e)
    | .ok s1 =>
      let r2 := migrateClientsT selfHeight prune ids s1
      (r.1 ++ r2.1, r2.2)

/-- Event trace of `MigrateStore`: the top-level client iterator opens, the
scan advances it over every key under the client prefix, the per-client
work runs, and the deferred close fires at function exit. -/
def MigrateStoreT (selfHeight : Height) (prune : Key → ClientStateTm → Store → Store)
    (store : Store) : List Ev × Except MigError Store :=
  let keys := iterKeys store keyClientStorePfx
  let r := migrateClientsT selfHeight prune (scanClients store) store
  (.iopen keyClientStorePfx :: keys.map Ev.inext ++ r.1 ++ [.iclose keyClientStorePfx],
   r.2)

/-- Checker for the claim's iterator discipline: scanning the trace with the
set of currently open iterator prefixes, every write or delete must be to a
key that no open iterator's prefix covers. -/
def iterDisciplineOK : List Ev → List Key → Bool
  | [], _ => true
  | .iopen p :: tr, ps => iterDisciplineOK tr (p :: ps)
  | .iclose p :: tr, ps => iterDisciplineOK tr (ps.erase p)
  | .inext _ :: tr, ps => iterDisciplineOK tr ps
  | .wset k :: tr, ps => ps.all (fun p => !(p.isPrefixOf k)) && iterDisciplineOK tr ps
  | .wdel k :: tr, ps => ps.all (fun p => !(p.isPrefixOf k)) && iterDisciplineOK tr ps

theorem collectPruneHeightsT_reads (pre : Key) (keys : List Key) (hs : List Height) :
    ∀ e ∈ (collectPruneHeightsT pre keys hs).1, ∃ k, e = .inext k := by
  induction keys generalizing hs with
  | nil => intro e he; simp [collectPruneHeightsT] at he
  | cons k0 ks ih =>
    intro e he
    simp only [collectPruneHeightsT] at he
    split at he
    · rcases List.mem_cons.mp he with h1 | h1
      · exact ⟨pre ++ k0, h1⟩
      · exact ih _ e h1
    · cases hp : parseHeight ((splitChar '/' k0).getD 1 []) with
      | none =>
        rw [hp] at he
        simp only [List.mem_singleton] at he
        exact ⟨pre ++ k0, he⟩
      | some h0 =>
        rw [hp] at he
        rcases List.mem_cons.mp he with h1 | h1
        · exact ⟨pre ++ k0, h1⟩
        · exact ih _ e h1

theorem collectMetaHeightsT_reads (pre : Key) (keys : List Key) (hs : List Height) :
    ∀ e ∈ (collectMetaHeightsT pre keys hs).1, ∃ k, e = .inext k := by
  induction keys generalizing hs with
  | nil => intro e he; simp [collectMetaHeightsT] at he
  | cons k0 ks ih =>
    intro e he
    simp only [collectMetaHeightsT] at he
    split at he
    · rcases List.mem_cons.mp he with h1 | h1
      · exact ⟨pre ++ k0, h1⟩
      · exact ih _ e h1
    · cases hp : parseHeight ((splitChar '/' k0).getD 1 []) with
      | none =>
        rw [hp] at he
        simp only [List.mem_singleton] at he
        exact ⟨pre ++ k0, he⟩
      | some h0 =>
        rw [hp] at he
        rcases List.mem_cons.mp he with h1 | h1
        · exact ⟨pre ++ k0, h1⟩
        · exact ih _ e h1

/-- The pruning pass trace is two-phase: open, reads only, then deletes
only, then the deferred close. -/
theorem pruneT_shape (pre : Key) (s : Store) :
    ∃ reads muts, (pruneSolomachineConsensusStatesT pre s).1
      = .iopen (pre ++ keyConsensusStatePfx) :: reads ++ muts
          ++ [.iclose (pre ++ keyConsensusStatePfx)]
      ∧ (∀ e ∈ reads, ∃ k, e = Ev.inext k) ∧ (∀ e ∈ muts, ∃ k, e = Ev.wdel k) := by
  unfold pruneSolomachineConsensusStatesT
  dsimp only
  cases hr : (collectPruneHeightsT pre (prefixIterKeys s pre keyConsensusStatePfx) []).2 with
  | error e =>
    refine ⟨(collectPruneHeightsT pre (prefixIterKeys s pre keyConsensusStatePfx) []).1,
      [], ?_, ?_, ?_⟩
    · simp
    · exact collectPruneHeightsT_reads pre _ []
    · simp
  | ok heights =>
    refine ⟨(collectPruneHeightsT pre (prefixIterKeys s pre keyConsensusStatePfx) []).1,
      heights.map (fun h => Ev.wdel (pre ++ ConsensusStateKey h)), ?_, ?_, ?_⟩
    · rfl
    · exact collectPruneHeightsT_reads pre _ []
    · intro e he
      obtain ⟨h, _, hh⟩ := List.mem_map.mp he
      exact ⟨pre ++ ConsensusStateKey h, hh.symm⟩

/-- The backfill pass trace is two-phase: open, reads only, then marker
writes only, then the deferred close. -/
theorem addCMT_shape (H : Height) (pre : Key) (s : Store) :
    ∃ reads muts, (addConsensusMetadataT H pre s).1
      = .iopen (pre ++ keyConsensusStatePfx) :: reads ++ muts
          ++ [.iclose (pre ++ keyConsensusStatePfx)]
      ∧ (∀ e ∈ reads, ∃ k, e = Ev.inext k) ∧ (∀ e ∈ muts, ∃ k, e = Ev.wset k) := by
  unfold addConsensusMetadataT
  dsimp only
  cases hr : (collectMetaHeightsT pre (prefixIterKeys s pre keyConsensusStatePfx) []).2 with
  | error e =>
    refine ⟨(collectMetaHeightsT pre (prefixIterKeys s pre keyConsensusStatePfx) []).1,
      [], ?_, ?_, ?_⟩
    · simp
    · exact collectMetaHeightsT_reads pre _ []
    · simp
  | ok heights =>
    refine ⟨(collectMetaHeightsT pre (prefixIterKeys s pre keyConsensusStatePfx) []).1,
      (heights.map fun h =>
        [Ev.wset (pre ++ ProcessedHeightKey h), Ev.wset (pre ++ IterationKey h)]).flatten,
      ?_, ?_, ?_⟩
    · rfl
    · exact collectMetaHeightsT_reads pre _ []
    · intro e he
      obtain ⟨pair, hpair, hin⟩ := List.mem_flatten.mp he
      obtain ⟨h, _, hh⟩ := List.mem_map.mp hpair
      subst hh
      rcases List.mem_cons.mp hin with h1 | h1
      · exact ⟨pre ++ ProcessedHeightKey h, h1⟩
      · rcases List.mem_cons.mp h1 with h2 | h2
        · exact ⟨pre ++ IterationKey h, h2⟩
        · simp at h2

/-- The top-level trace starts with the scan phase: the client iterator
opens and is fully advanced before any per-client work, and its deferred
close is the last event. -/
theorem MigrateStoreT_shape (H : Height) (pr : Key → ClientStateTm → Store → Store)
    (store : Store) :
    ∃ body, (MigrateStoreT H pr store).1
      = .iopen keyClientStorePfx
          :: (iterKeys store keyClientStorePfx).map Ev.inext ++ body
          ++ [.iclose keyClientStorePfx] :=
  ⟨(migrateClientsT H pr (scanClients store) store).1, rfl⟩

/-!  The claim theorems. -/

/-- C1: for every store containing a legacy solo machine client record (a
client identifier carrying the solo machine type tag whose client-state key
holds a legacy v1 record), after `MigrateStore` succeeds the client-state
key holds the re-encoded v2 record with `is_frozen` equal to
`frozen_sequence != 0`, the sequence unchanged, and the three consensus
sub-fields (public key, diversifier, timestamp) unchanged, and the client's
consensus-state key range is empty (no consensus-state record key of the
client holds a value).  The external pruning routine is assumed local to
its client namespace, as the spec specifies. -/
theorem solomachine_client_fully_migrated
    {H : Height} {pr : Key → ClientStateTm → Store → Store} (hpr : PruneLocal pr)
    {store store' : Store} {id : Key} {n : Nat} {v : ClientStateV1}
    (hok : MigrateStore H pr store = .ok store')
    (hid : ParseClientIdentifier id = some (Solomachine, n))
    (hget : get store (clientPfx id ++ keyClientState) = some (.smV1 v)) :
    get store' (clientPfx id ++ keyClientState)
      = some (.smV2
          { sequence := v.sequence
            isFrozen := v.frozenSequence != 0
            consensusState :=
              { publicKey := v.consensusState.publicKey
                diversifier := v.consensusState.diversifier
                timestamp := v.consensusState.timestamp } })
      ∧ ∀ h : Height, get store' (clientPfx id ++ ConsensusStateKey h) = none := by
  have hids := not_slash_mem_of_parse_solomachine hid
  have hmem := mem_scanClients hids hget
  unfold MigrateStore at hok
  exact foldClients_solo hpr hid hids (scanClients store) store store'
    (fun id' hm => no_slash_of_mem_scanClients hm) hok (Or.inl ⟨hget, hmem⟩)

/-- C2: after a successful consensus-metadata backfill pass, every existing
consensus-state height of the client has a processed-height marker holding
the chain's current height and an iteration-order marker present, and the
client-state record is unmodified by the pass; in the orchestrator's
time-ordered branch the external pruning routine is applied only afterwards,
to the backfilled store. -/
theorem consensus_metadata_backfill_markers :
    (∀ (H : Height) (pre : Key) (s s' : Store),
      addConsensusMetadata H pre s = .ok s' →
      (∀ (h : Height) (v : Value), get s (pre ++ ConsensusStateKey h) = some v →
        get s' (pre ++ ProcessedHeightKey h) = some (.heightVal H)
          ∧ ∃ w, get s' (pre ++ IterationKey h) = some w)
      ∧ get s' (pre ++ keyClientState) = get s (pre ++ keyClientState))
    ∧ ∀ (H : Height) (pr : Key → ClientStateTm → Store → Store) (s : Store)
        (id : Key) (n : Nat) (cs : ClientStateTm),
        ParseClientIdentifier id = some (Tendermint, n) →
        get s (clientPfx id ++ keyClientState) = some (.tm cs) →
        migrateClient H pr s id
          = Except.map (pr (clientPfx id) cs)
              (addConsensusMetadata H (clientPfx id) s) := by
  constructor
  · intro H pre s s' hok
    exact ⟨fun h v hg => addCM_markers hok hg, addCM_clientState hok⟩
  · intro H pr s id n cs hid hget
    exact migrateClient_tm hid hget

/-- C3: the client registry scan collects, in store iteration order, exactly
the identifiers obtained as the second segment (position 1) of every key
under the global client prefix whose final separator-split segment equals
the client-state suffix literal.  The scan is a pure function of the store
(its type admits no store output), so running it twice on the same
unmodified store yields identical results. -/
theorem scanner_matches_spec : ∀ store : Store, scanClients store = scanClientsSpec store :=
  scanClients_eq_spec

/-- C4 counterexample: on a store holding a single legacy solo machine
client, the migration's event trace issues a write to a key under the
"clients" prefix while the top-level iterator over that prefix is still
open (its deferred close fires only at function exit), refuting the claim
that no write or delete is ever issued to a key prefix while an iterator
over that prefix is open. -/
theorem iterator_open_during_mutation_cex :
    iterDisciplineOK
      (MigrateStoreT ⟨1, 1⟩ (fun _ _ s => s)
        [(strKey "clients/06-solomachine-0/clientState",
          .smV1 ⟨1, 0, ⟨0, [], 0⟩⟩)]).1 [] = false := by decide

/-- C4 amended: each pruning/backfill pass is two-phase — its trace opens
the iterator, performs only iterator reads, then only deletes (pruning) or
only marker writes (backfill), and the deferred close is the final event of
the pass — and the top-level scan fully advances the client iterator before
any per-client work; the iterators are however closed only at pass exit,
after the mutations. -/
theorem migration_two_phase_per_pass :
    (∀ (pre : Key) (s : Store), ∃ reads muts,
      (pruneSolomachineConsensusStatesT pre s).1
        = .iopen (pre ++ keyConsensusStatePfx) :: reads ++ muts
            ++ [.iclose (pre ++ keyConsensusStatePfx)]
        ∧ (∀ e ∈ reads, ∃ k, e = Ev.inext k) ∧ (∀ e ∈ muts, ∃ k, e = Ev.wdel k))
    ∧ (∀ (H : Height) (pre : Key) (s : Store), ∃ reads muts,
      (addConsensusMetadataT H pre s).1
        = .iopen (pre ++ keyConsensusStatePfx) :: reads ++ muts
            ++ [.iclose (pre ++ keyConsensusStatePfx)]
        ∧ (∀ e ∈ reads, ∃ k, e = Ev.inext k) ∧ (∀ e ∈ muts, ∃ k, e = Ev.wset k))
    ∧ ∀ (H : Height) (pr : Key → ClientStateTm → Store → Store) (store : Store),
        ∃ body, (MigrateStoreT H pr store).1
          = .iopen keyClientStorePfx
              :: (iterKeys store keyClientStorePfx).map Ev.inext ++ body
              ++ [.iclose keyClientStorePfx] :=
  ⟨pruneT_shape, addCMT_shape, MigrateStoreT_shape⟩

/-- C5: a consensus-state key whose height suffix does not parse (such as
"consensusStates/abc") makes both the solo machine pruning pass and the
metadata backfill pass fail fatally with the malformed-height-key error
(the `MustParseHeight` panic), never silently skipping the key. -/
theorem malformed_height_key_fatal :
    ∀ (pre seg : Key) (s : Store) (v : Value) (H : Height),
      get s (pre ++ (keyConsensusStatePfx ++ '/' :: seg)) = some v →
      '/' ∉ seg → parseHeight seg = none →
      pruneSolomachineConsensusStates pre s = .error .malformedHeightKey
        ∧ addConsensusMetadata H pre s = .error .malformedHeightKey := by
  intro pre seg s v H hget hsl hp
  exact ⟨prune_error_of_malformed hget hsl hp, addCM_error_of_malformed hget hsl hp⟩

/-- C6: a malformed scanned client identifier makes its migration step fail
with the invalid-identifier error, and makes the whole migration fail (so
no migrated store is produced and the enclosing transaction is discarded,
leaving the store with zero net mutations). -/
theorem malformed_identifier_fails_migration :
    (∀ (H : Height) (pr : Key → ClientStateTm → Store → Store) (s : Store) (id : Key),
      ParseClientIdentifier id = none →
      migrateClient H pr s id = .error .invalidIdentifier)
    ∧ ∀ (H : Height) (pr : Key → ClientStateTm → Store → Store)
        (store : Store) (id : Key),
        id ∈ scanClients store → ParseClientIdentifier id = none →
        (∃ e, MigrateStore H pr store = .error e)
          ∧ ∀ store', MigrateStore H pr store ≠ .ok store' := by
  constructor
  · intro H pr s id hid
    exact migrateClient_invalid hid
  · intro H pr store id hmem hid
    obtain ⟨e, he⟩ := foldClients_poison hid (scanClients store) store hmem
    constructor
    · exact ⟨e, he⟩
    · intro store' hok
      unfold MigrateStore at hok
      rw [hok] at he
      exact absurd he (by simp)

/-- C7: a scanned client whose well-formed identifier carries a type tag
that is neither the solo machine nor the tendermint tag is skipped: its
migration step returns the store unchanged with no error, and under a
successful migration every key of that client's namespace keeps its
original value. -/
theorem unknown_tag_client_skipped :
    (∀ (H : Height) (pr : Key → ClientStateTm → Store → Store) (s : Store)
      (id tag : Key) (n : Nat) (bz : Value),
      ParseClientIdentifier id = some (tag, n) →
      tag ≠ Solomachine → tag ≠ Tendermint →
      get s (clientPfx id ++ keyClientState) = some bz →
      migrateClient H pr s id = .ok s)
    ∧ ∀ (H : Height) (pr : Key → ClientStateTm → Store → Store), PruneLocal pr →
        ∀ (store store' : Store) (id tag : Key) (n : Nat) (bz : Value),
        MigrateStore H pr store = .ok store' →
        id ∈ scanClients store →
        ParseClientIdentifier id = some (tag, n) →
        tag ≠ Solomachine → tag ≠ Tendermint →
        get store (clientPfx id ++ keyClientState) = some bz →
        ∀ k, clientPfx id <+: k → get store' k = get store k := by
  constructor
  · intro H pr s id tag n bz hid hs ht hget
    exact migrateClient_skip hid hs ht hget
  · intro H pr hpr store store' id tag n bz hok hmem hid hs ht hbz k hk
    unfold MigrateStore at hok
    have hids := no_slash_of_mem_scanClients hmem
    exact foldClients_skip hpr hids hid hs ht hbz (scanClients store) store store'
      (fun id' hm => no_slash_of_mem_scanClients hm) hok (fun _ _ => rfl) k hk

/-- C8: a client whose identifier carries the tendermint tag but whose
stored client-state bytes decode (via the polymorphic interface decode) to
a value of a different dynamic type makes the migration step fail with the
wrong-client-type error, performing no backfill and no pruning for that
client. -/
theorem tendermint_type_mismatch_fails :
    ∀ (H : Height) (pr : Key → ClientStateTm → Store → Store) (s : Store)
      (id : Key) (n : Nat) (bz : Value) (d : DecodedClientState),
      ParseClientIdentifier id = some (Tendermint, n) →
      get s (clientPfx id ++ keyClientState) = some bz →
      unmarshalInterface bz = some d →
      (∀ cs, d ≠ .tm cs) →
      migrateClient H pr s id = .error .wrongClientType := by
  intro H pr s id n bz d hid hget hun hd
  exact migrateClient_wrongType hid hget hun hd

/-- C9: the solo machine pruning pass deletes only reconstructed
consensus-state record keys — which split on the separator into exactly the
consensus-state prefix literal and a height string — and every other key of
the client's sub-store keeps its value. -/
theorem solomachine_pruning_frame :
    ∀ (pre : Key) (s s' : Store),
      pruneSolomachineConsensusStates pre s = .ok s' →
      (∀ k, (∀ h : Height, k ≠ pre ++ ConsensusStateKey h) → get s' k = get s k)
      ∧ ∀ h : Height, splitChar '/' (ConsensusStateKey h)
          = [keyConsensusStatePfx, heightChars h] := by
  intro pre s s' hok
  exact ⟨fun k hk => prune_frame hok hk, splitChar_ConsensusStateKey⟩

/-- C10: the consensus-metadata backfill qualifies an iterated key solely by
its segment count: every key under the iterated consensus-state prefix that
splits into exactly two segments has its second segment parsed as a height
and receives both markers — with no check that the first segment equals the
consensus-state prefix literal — and when every such two-segment key
parses, the pass succeeds, silently skipping keys of any other segment
count. -/
theorem backfill_qualifies_by_segment_count :
    (∀ (H : Height) (pre : Key) (s s' : Store) (k a b : Key) (h : Height),
      addConsensusMetadata H pre s = .ok s' →
      k ∈ prefixIterKeys s pre keyConsensusStatePfx →
      splitChar '/' k = [a, b] → parseHeight b = some h →
      get s' (pre ++ ProcessedHeightKey h) = some (.heightVal H)
        ∧ ∃ w, get s' (pre ++ IterationKey h) = some w)
    ∧ ∀ (H : Height) (pre : Key) (s : Store),
        (∀ k ∈ prefixIterKeys s pre keyConsensusStatePfx,
          ∀ a b, splitChar '/' k = [a, b] → parseHeight b ≠ none) →
        ∃ s', addConsensusMetadata H pre s = .ok s' :=
  ⟨fun _ _ _ _ _ _ _ _ hok hkmem hsp hp => addCM_markers_of_key hok hkmem hsp hp,
   fun _ _ _ hgood => addCM_ok_of_good hgood⟩

/-! Concrete witness data and witnesses. -/

/-- An external pruning routine that prunes nothing, used as the concrete
collaborator in witnesses; it is trivially local. -/
def prId : Key → ClientStateTm → Store → Store := fun _ _ s => s

theorem prId_local : PruneLocal prId := fun _ _ _ _ _ => rfl

def wV1 : ClientStateV1 := ⟨5, 5, ⟨3, ['d'], 1000⟩⟩

def wSmStore : Store :=
  [(strKey "clients/06-solomachine-0/clientState", .smV1 wV1),
   (strKey "clients/06-solomachine-0/consensusStates/1-1", .raw 7)]

def wSmStoreAfter : Store := (MigrateStore ⟨1, 1⟩ prId wSmStore).toOption.getD []

theorem solomachine_client_fully_migrated_witness :
    get wSmStoreAfter (clientPfx (strKey "06-solomachine-0") ++ keyClientState)
      = some (.smV2
          { sequence := 5
            isFrozen := true
            consensusState := { publicKey := 3, diversifier := ['d'], timestamp := 1000 } })
    ∧ ∀ h : Height,
        get wSmStoreAfter (clientPfx (strKey "06-solomachine-0") ++ ConsensusStateKey h)
          = none :=
  @solomachine_client_fully_migrated ⟨1, 1⟩ prId prId_local wSmStore wSmStoreAfter
    (strKey "06-solomachine-0") 0 wV1 (by rfl) (by rfl) (by rfl)

def wTmStore : Store :=
  [(strKey "clients/07-tendermint-0/clientState", .tm ⟨1⟩),
   (strKey "clients/07-tendermint-0/consensusStates/2-10", .raw 7)]

def wTmPre : Key := clientPfx (strKey "07-tendermint-0")

def wTmAfter : Store := (addConsensusMetadata ⟨2, 30⟩ wTmPre wTmStore).toOption.getD []

theorem consensus_metadata_backfill_markers_witness :
    (get wTmAfter (wTmPre ++ ProcessedHeightKey ⟨2, 10⟩) = some (.heightVal ⟨2, 30⟩)
      ∧ ∃ w, get wTmAfter (wTmPre ++ IterationKey ⟨2, 10⟩) = some w)
    ∧ get wTmAfter (wTmPre ++ keyClientState) = get wTmStore (wTmPre ++ keyClientState)
    ∧ migrateClient ⟨2, 30⟩ prId wTmStore (strKey "07-tendermint-0")
        = Except.map (prId wTmPre ⟨1⟩)
            (addConsensusMetadata ⟨2, 30⟩ wTmPre wTmStore) := by
  have h1 := consensus_metadata_backfill_markers.1 ⟨2, 30⟩ wTmPre wTmStore wTmAfter (by rfl)
  have h2 := consensus_metadata_backfill_markers.2 ⟨2, 30⟩ prId wTmStore
    (strKey "07-tendermint-0") 0 ⟨1⟩ (by rfl) (by rfl)
  exact ⟨h1.1 ⟨2, 10⟩ (.raw 7) (by rfl), h1.2, h2⟩

theorem migration_two_phase_per_pass_witness :
    ∃ reads muts,
      (pruneSolomachineConsensusStatesT [] [(strKey "consensusStates/3-4", .raw 0)]).1
        = .iopen ([] ++ keyConsensusStatePfx) :: reads ++ muts
            ++ [.iclose ([] ++ keyConsensusStatePfx)]
        ∧ (∀ e ∈ reads, ∃ k, e = Ev.inext k) ∧ (∀ e ∈ muts, ∃ k, e = Ev.wdel k) :=
  migration_two_phase_per_pass.1 [] [(strKey "consensusStates/3-4", .raw 0)]

def wBadStore : Store := [(strKey "consensusStates/abc", .raw 0)]

theorem malformed_height_key_fatal_witness :
    pruneSolomachineConsensusStates [] wBadStore = .error .malformedHeightKey
    ∧ addConsensusMetadata ⟨1, 1⟩ [] wBadStore = .error .malformedHeightKey :=
  malformed_height_key_fatal [] (strKey "abc") wBadStore (.raw 0) ⟨1, 1⟩
    (by rfl) (by decide) (by rfl)

def wBogusStore : Store := [(strKey "clients/bogus/clientState", .raw 0)]

theorem malformed_identifier_fails_migration_witness :
    migrateClient ⟨1, 1⟩ prId wBogusStore (strKey "bogus") = .error .invalidIdentifier
    ∧ (∃ e, MigrateStore ⟨1, 1⟩ prId wBogusStore = .error e)
    ∧ ∀ store', MigrateStore ⟨1, 1⟩ prId wBogusStore ≠ .ok store' := by
  have h1 := malformed_identifier_fails_migration.1 ⟨1, 1⟩ prId wBogusStore
    (strKey "bogus") (by rfl)
  have h2 := malformed_identifier_fails_migration.2 ⟨1, 1⟩ prId wBogusStore
    (strKey "bogus") (by decide) (by rfl)
  exact ⟨h1, h2.1, h2.2⟩

def wCustomStore : Store := [(strKey "clients/99-custom-0/clientState", .anyClient 7)]

def wCustomAfter : Store := (MigrateStore ⟨1, 1⟩ prId wCustomStore).toOption.getD []

theorem unknown_tag_client_skipped_witness :
    migrateClient ⟨1, 1⟩ prId wCustomStore (strKey "99-custom-0") = .ok wCustomStore
    ∧ get wCustomAfter (clientPfx (strKey "99-custom-0") ++ keyClientState)
        = get wCustomStore (clientPfx (strKey "99-custom-0") ++ keyClientState) := by
  have h1 := unknown_tag_client_skipped.1 ⟨1, 1⟩ prId wCustomStore (strKey "99-custom-0")
    (strKey "99-custom") 0 (.anyClient 7) (by rfl) (by decide) (by decide) (by rfl)
  have h2 := unknown_tag_client_skipped.2 ⟨1, 1⟩ prId prId_local wCustomStore wCustomAfter
    (strKey "99-custom-0") (strKey "99-custom") 0 (.anyClient 7) (by rfl) (by decide)
    (by rfl) (by decide) (by decide) (by rfl)
    (clientPfx (strKey "99-custom-0") ++ keyClientState) (List.prefix_append _ _)
  exact ⟨h1, h2⟩

def wSm2Store : Store :=
  [(strKey "clients/07-tendermint-0/clientState", .smV2 ⟨1, false, ⟨0, [], 0⟩⟩)]

theorem tendermint_type_mismatch_fails_witness :
    migrateClient ⟨1, 1⟩ prId wSm2Store (strKey "07-tendermint-0")
      = .error .wrongClientType :=
  tendermint_type_mismatch_fails ⟨1, 1⟩ prId wSm2Store (strKey "07-tendermint-0") 0
    (.smV2 ⟨1, false, ⟨0, [], 0⟩⟩) (.smV2 ⟨1, false, ⟨0, [], 0⟩⟩)
    (by rfl) (by rfl) (by rfl) (fun cs h => by simp at h)

def wStray : Store :=
  [(strKey "consensusStates/1-1", .raw 0),
   (strKey "consensusStates/1-1/processedHeight", .raw 1),
   (strKey "clientState", .raw 2)]

def wStrayAfter : Store := (pruneSolomachineConsensusStates [] wStray).toOption.getD []

theorem solomachine_pruning_frame_witness :
    get wStrayAfter (strKey "consensusStates/1-1/processedHeight") = some (.raw 1)
    ∧ splitChar '/' (ConsensusStateKey ⟨1, 1⟩)
        = [keyConsensusStatePfx, heightChars ⟨1, 1⟩] := by
  have h := solomachine_pruning_frame [] wStray wStrayAfter (by rfl)
  have hne : ∀ hh : Height,
      strKey "consensusStates/1-1/processedHeight" ≠ [] ++ ConsensusStateKey hh := by
    intro hh heq
    have hlen : (splitChar '/' (strKey "consensusStates/1-1/processedHeight")).length
        = 3 := rfl
    rw [heq, show ([] : Key) ++ ConsensusStateKey hh = ConsensusStateKey hh from rfl,
      splitChar_ConsensusStateKey hh] at hlen
    simp at hlen
  exact ⟨(h.1 _ hne).trans (by rfl), h.2 ⟨1, 1⟩⟩

def wMixStore : Store :=
  [(strKey "consensusStatesXtra/1-5", .raw 0),
   (strKey "consensusStates/bogus/extra", .raw 1)]

def wMixAfter : Store := (addConsensusMetadata ⟨9, 9⟩ [] wMixStore).toOption.getD []

theorem backfill_qualifies_by_segment_count_witness :
    (get wMixAfter ([] ++ ProcessedHeightKey ⟨1, 5⟩) = some (.heightVal ⟨9, 9⟩)
      ∧ ∃ w, get wMixAfter ([] ++ IterationKey ⟨1, 5⟩) = some w)
    ∧ ∃ s', addConsensusMetadata ⟨9, 9⟩ [] wMixStore = .ok s' := by
  constructor
  · exact backfill_qualifies_by_segment_count.1 ⟨9, 9⟩ [] wMixStore wMixAfter
      (strKey "consensusStatesXtra/1-5") (strKey "consensusStatesXtra") (strKey "1-5")
      ⟨1, 5⟩ (by rfl) (by decide) (by rfl) (by rfl)
  · apply backfill_qualifies_by_segment_count.2 ⟨9, 9⟩ [] wMixStore
    intro k hk a b hsp
    rw [show prefixIterKeys wMixStore [] keyConsensusStatePfx
        = [strKey "consensusStates/bogus/extra", strKey "consensusStatesXtra/1-5"]
        from rfl] at hk
    rcases List.mem_cons.mp hk with h1 | h1
    · subst h1
      rw [show splitChar '/' (strKey "consensusStates/bogus/extra")
          = [strKey "consensusStates", strKey "bogus", strKey "extra"] from rfl] at hsp
      simp at hsp
    · rcases List.mem_cons.mp h1 with h2 | h2
      · subst h2
        rw [show splitChar '/' (strKey "consensusStatesXtra/1-5")
            = [strKey "consensusStatesXtra", strKey "1-5"] from rfl] at hsp
        have hb : b = strKey "1-5" := by
          injection hsp with h3 h4
          injection h4 with h5 h6
          exact h5.symm
        subst hb
        decide
      · simp at h2

end Ibc
